import Mathlib

/-
  Verification of the Wardley-map plugin core
  (inline-syntax parser `src/parser.ts`, layout engine `src/renderer.ts`,
  and the standalone test tool `generate-svg.js`).

  The embedding models:
  * JavaScript strings as `List Char` (a parsed line) or `String` (stored names);
  * JavaScript `Map` as an insertion-ordered association list (`alGet`/`alSet`
    reproduce `Map.get`/`Map.set`: update in place, insert at the end);
  * JavaScript numbers as `ℚ` (all arithmetic performed by the layout engine is
    a short sequence of exact decimal operations; divergence from binary
    floating point could only matter at ties, which no statement here hinges on);
  * the regular expressions of the parser by a small backtracking matcher
    (`rmatch`) covering exactly the constructs the source uses: literals and
    `+`-quantified character classes, greedy or lazy, with capture groups.
-/

/-! ## JavaScript string primitives -/

/-- JS `\s` (the whitespace class used by `trim` and the parser's regexes),
restricted to the ASCII range that can occur in the plugin's input. -/
def jsWhitespaceB (c : Char) : Bool :=
  c = ' ' || c = '\t' || c = '\n' || c = '\r' || c = '\x0b' || c = '\x0c'

/-- JS `\w`: `[A-Za-z0-9_]`. -/
def wordCharB (c : Char) : Bool :=
  (('a' ≤ c && c ≤ 'z') || ('A' ≤ c && c ≤ 'Z') || ('0' ≤ c && c ≤ '9') || c = '_')

/-- JS `.` (no `s` flag): any character except a line terminator. -/
def dotCharB (c : Char) : Bool :=
  !(c = '\n' || c = '\r' || c = '\u2028' || c = '\u2029')

/-- JS `\S`. -/
def nonWhitespaceB (c : Char) : Bool := !jsWhitespaceB c

/-- JS `String.prototype.trim`. -/
def jsTrim (s : List Char) : List Char :=
  ((s.dropWhile jsWhitespaceB).reverse.dropWhile jsWhitespaceB).reverse

/-- Pack a character list back into a stored string. -/
def strOf (l : List Char) : String := String.mk l

/-- JS `source.split("\n")`. -/
def splitLines : List Char → List (List Char)
  | [] => [[]]
  | c :: rest =>
    if c = '\n' then [] :: splitLines rest
    else
      match splitLines rest with
      | [] => [[c]]
      | h :: t => (c :: h) :: t

/-- JS `line.split("->")` (leftmost, non-overlapping occurrences). -/
def splitArrows : List Char → List (List Char)
  | [] => [[]]
  | '-' :: '>' :: rest => [] :: splitArrows rest
  | c :: rest =>
    match splitArrows rest with
    | [] => [[c]]
    | h :: t => (c :: h) :: t

/-- JS `line.includes("->")`. -/
def containsArrow : List Char → Bool
  | [] => false
  | '-' :: '>' :: _ => true
  | _ :: rest => containsArrow rest

/-! ## Insertion-ordered maps (JS `Map`) -/

/-- `Map.get`. -/
def alGet {α : Type} : List (String × α) → String → Option α
  | [], _ => none
  | (k, v) :: rest, key => if k = key then some v else alGet rest key

/-- `Map.set`: replace the value in place if the key exists, append otherwise. -/
def alSet {α : Type} : List (String × α) → String → α → List (String × α)
  | [], key, v => [(key, v)]
  | (k, w) :: rest, key, v =>
    if k = key then (key, v) :: rest else (k, w) :: alSet rest key v

/-! ## Regular-expression engine

The parser's five regexes use only: anchored literals, `\s+`, `\w+`, `\S+`,
`(.+?)`, `(\w+)`, `(\S+)`, `(.+)`.  Every quantifier is a `+` over a character
class, so a pattern is a list of tokens, each a literal or a `+`-quantified
class (with a laziness flag and a capture flag).  `rmatch` implements exact
backtracking semantics: the leftmost quantifier tries its preferred lengths
first, fully exploring the remainder of the pattern for each choice. -/

inductive RTok : Type
  | lit : List Char → RTok
  | cls : (Char → Bool) → Bool → Bool → RTok
  -- class, lazy?, capture?

/-- Anchored match of a token list against an entire string, returning the
captured groups in order (or `none` if there is no match). -/
def rmatch : List RTok → List Char → Option (List (List Char))
  | [], [] => some []
  | [], _ :: _ => none
  | .lit p :: ps, s =>
    if p.isPrefixOf s then rmatch ps (s.drop p.length) else none
  | .cls f lz cap :: ps, s =>
    let m := (s.takeWhile f).length
    let ks := if lz then List.range' 1 m else (List.range' 1 m).reverse
    ks.findSome? fun k =>
      (rmatch ps (s.drop k)).map fun gs =>
        if cap then s.take k :: gs else gs

/-- `/^component\s+(.+?)\s+\[(\w+)\]$/` -/
def componentPat : List RTok :=
  [ .lit "component".toList, .cls jsWhitespaceB false false,
    .cls dotCharB true true, .cls jsWhitespaceB false false,
    .lit "[".toList, .cls wordCharB false true, .lit "]".toList ]

/-- `/^anchor\s+(.+?)\s+\[(\w+)\]$/` -/
def anchorPat : List RTok :=
  [ .lit "anchor".toList, .cls jsWhitespaceB false false,
    .cls dotCharB true true, .cls jsWhitespaceB false false,
    .lit "[".toList, .cls wordCharB false true, .lit "]".toList ]

/-- `/^evolve\s+(.+?)\s+->\s+(.+?)\s+\[(\w+)\]$/` -/
def evolveArrowPat : List RTok :=
  [ .lit "evolve".toList, .cls jsWhitespaceB false false,
    .cls dotCharB true true, .cls jsWhitespaceB false false,
    .lit "->".toList, .cls jsWhitespaceB false false,
    .cls dotCharB true true, .cls jsWhitespaceB false false,
    .lit "[".toList, .cls wordCharB false true, .lit "]".toList ]

/-- `/^evolve\s+(.+?)\s+\[(\w+)\]$/` -/
def evolveStagePat : List RTok :=
  [ .lit "evolve".toList, .cls jsWhitespaceB false false,
    .cls dotCharB true true, .cls jsWhitespaceB false false,
    .lit "[".toList, .cls wordCharB false true, .lit "]".toList ]

/-- `/^annotation\s+(\S+)\s+(.+)$/` -/
def annotationPat : List RTok :=
  [ .lit "annotation".toList, .cls jsWhitespaceB false false,
    .cls nonWhitespaceB false true, .cls jsWhitespaceB false false,
    .cls dotCharB false true ]

/-! ## Data model (`src/types.ts`) -/

/-- The four evolution stages (`EvolutionStage`). -/
inductive EvolutionStage : Type
  | genesis | custom | product | commodity
deriving DecidableEq, Repr

/-- The stage token table used by `isValidStage`; `none` for any other token. -/
def stageOfString : String → Option EvolutionStage
  | "genesis" => some .genesis
  | "custom" => some .custom
  | "product" => some .product
  | "commodity" => some .commodity
  | _ => none

/-- `isValidStage` from `parser.ts`. -/
def isValidStage (stage : String) : Bool := (stageOfString stage).isSome

/-- `Component`: the source declares `x`/`y` as optional numbers that exist
only after layout, hence `Option ℚ`. -/
structure Component : Type where
  name : String
  stage : EvolutionStage
  isAnchor : Bool
  x : Option ℚ
  y : Option ℚ
deriving DecidableEq, Repr

/-- `Dependency` (`from` and `to` are reserved tokens here, hence the trailing
underscores on the field names). -/
structure Dependency : Type where
  from_ : String
  to_ : String
  label : Option String
deriving DecidableEq, Repr

/-- `Evolution`.  The parser stores the raw stage token with a bare type cast
and never validates it (`evolveMatch[3] as EvolutionStage`), so the field is
kept as the raw string. -/
structure Evolution : Type where
  from_ : String
  to_ : String
  stage : String
deriving DecidableEq, Repr

/-- `Annotation`. -/
structure Annot : Type where
  id : String
  text : String
deriving DecidableEq, Repr

/-- Error messages, one constructor per distinct message template of
`parser.ts` (the argument is the interpolated part):
`invalidStage s` = "Invalid evolution stage 's'. Must be: ...";
`duplicateComponent n` = "Component 'n' declared multiple times";
`notDeclared n` = "Component 'n' not declared" (inline `evolve` check);
`unknown l` = "Unknown syntax: l";
`refNotDeclared n` = "Component 'n' referenced but not declared" (post-pass). -/
inductive ErrMsg : Type
  | invalidStage (stage : String)
  | duplicateComponent (name : String)
  | notDeclared (name : String)
  | unknown (line : String)
  | refNotDeclared (name : String)
deriving DecidableEq, Repr

/-- `ParseError`. -/
structure ParseError : Type where
  line : Nat
  msg : ErrMsg
deriving DecidableEq, Repr

/-- `WardleyMap`. -/
structure WardleyMap : Type where
  title : Option String
  components : List Component
  dependencies : List Dependency
  evolutions : List Evolution
  annotations : List Annot
  notes : List String
deriving DecidableEq, Repr

/-- Result of `parseWardleyMap`. -/
structure ParseResult : Type where
  map : Option WardleyMap
  errors : List ParseError
deriving DecidableEq, Repr

/-! ## The parser (`src/parser.ts`) -/

/-- `parseDependencyChain`: split the line on `->`; each adjacent pair of
segments becomes one edge.  The `to` side is split at its first `;` into name
and label; the `from` side is stripped at its first `;` only for the first
segment (`if (i === 0)` in the source).  The source threads an `errors` array
through this function but never writes to it, so it is omitted here. -/
def depSegSplit (t : List Char) : List Char × Option (List Char) :=
  let pre := t.takeWhile (fun c => !(c = ';'))
  if pre.length = t.length then (t, none)
  else (jsTrim pre, some (jsTrim (t.drop (pre.length + 1))))

/-- The loop of `parseDependencyChain` over adjacent segment pairs; the flag
records whether the current pair is the first one (`i === 0`). -/
def depChainGo (isFirst : Bool) : List (List Char) → List Dependency
  | a :: b :: rest =>
    let fromT := jsTrim a
    let toT := jsTrim b
    let toSplit := depSegSplit toT
    let fromFinal :=
      if isFirst then jsTrim (fromT.takeWhile (fun c => !(c = ';'))) else fromT
    { from_ := strOf fromFinal, to_ := strOf toSplit.1,
      label := toSplit.2.map strOf } :: depChainGo false (b :: rest)
  | _ => []

/-- `parseDependencyChain` (on an already-trimmed line, as called). -/
def parseDependencyChain (line : List Char) : List Dependency :=
  depChainGo true (splitArrows line)

/-- Parser state: the map under construction, the name table, and the error
accumulator of `parseWardleyMap`. -/
structure ParseState : Type where
  map : WardleyMap
  componentMap : List (String × Component)
  errors : List ParseError
deriving DecidableEq, Repr

/-- The empty state at the top of `parseWardleyMap`. -/
def initState : ParseState :=
  { map := { title := none, components := [], dependencies := [],
             evolutions := [], annotations := [], notes := [] },
    componentMap := [], errors := [] }

/-- `errors.push({line, message})`. -/
def pushError (st : ParseState) (lineNum : Nat) (m : ErrMsg) : ParseState :=
  { st with errors := st.errors ++ [{ line := lineNum, msg := m }] }

/-- The shared tail of the `component` and `anchor` branches: register the
component in the name table and append it to the components list. -/
def addComponent (st : ParseState) (name : String) (stg : EvolutionStage)
    (anchor : Bool) : ParseState :=
  let comp : Component :=
    { name := name, stage := stg, isAnchor := anchor, x := none, y := none }
  { st with
    componentMap := alSet st.componentMap name comp,
    map := { st.map with components := st.map.components ++ [comp] } }

/-- One iteration of the line loop of `parseWardleyMap`, applied to the
already-trimmed line.  The branches appear in the source's priority order:
empty/comment, `title`, component, anchor, `evolve a -> b [s]`,
`evolve a [s]`, any line containing `->`, `annotation`, `note`, unknown
syntax.  Notes: the component/anchor branches validate the stage before the
duplicate check; the `evolve a -> b [s]` branch checks that both endpoints
are already declared but never validates the stage token; the dependency
branch produces no errors at all (endpoints are validated in a post-pass). -/
def processTrimmedLine (st : ParseState) (line : List Char) (lineNum : Nat) :
    ParseState :=
  if line = [] then st
  else if "#".toList.isPrefixOf line then st
  else if "title ".toList.isPrefixOf line then
    { st with map := { st.map with title := some (strOf (jsTrim (line.drop 6))) } }
  else
    match rmatch componentPat line with
    | some gs =>
      let name := strOf (jsTrim (gs.getD 0 []))
      let stageStr := strOf (gs.getD 1 [])
      match stageOfString stageStr with
      | none => pushError st lineNum (.invalidStage stageStr)
      | some stg =>
        if (alGet st.componentMap name).isSome then
          pushError st lineNum (.duplicateComponent name)
        else addComponent st name stg false
    | none =>
    match rmatch anchorPat line with
    | some gs =>
      let name := strOf (jsTrim (gs.getD 0 []))
      let stageStr := strOf (gs.getD 1 [])
      match stageOfString stageStr with
      | none => pushError st lineNum (.invalidStage stageStr)
      | some stg =>
        if (alGet st.componentMap name).isSome then
          pushError st lineNum (.duplicateComponent name)
        else addComponent st name stg true
    | none =>
    match rmatch evolveArrowPat line with
    | some gs =>
      let f := strOf (jsTrim (gs.getD 0 []))
      let t := strOf (jsTrim (gs.getD 1 []))
      let stg := strOf (gs.getD 2 [])
      if (alGet st.componentMap f).isNone then
        pushError st lineNum (.notDeclared f)
      else if (alGet st.componentMap t).isNone then
        pushError st lineNum (.notDeclared t)
      else
        { st with map :=
            { st.map with evolutions :=
                st.map.evolutions ++ [{ from_ := f, to_ := t, stage := stg }] } }
    | none =>
    match rmatch evolveStagePat line with
    | some gs =>
      let name := strOf (jsTrim (gs.getD 0 []))
      if (alGet st.componentMap name).isNone then
        pushError st lineNum (.notDeclared name)
      else st
    | none =>
    if containsArrow line then
      { st with map :=
          { st.map with dependencies :=
              st.map.dependencies ++ parseDependencyChain line } }
    else
    match rmatch annotationPat line with
    | some gs =>
      { st with map :=
          { st.map with annotations :=
              st.map.annotations ++
                [{ id := strOf (gs.getD 0 []), text := strOf (gs.getD 1 []) }] } }
    | none =>
    if "note ".toList.isPrefixOf line then
      { st with map := { st.map with notes := st.map.notes ++ [strOf (jsTrim (line.drop 5))] } }
    else pushError st lineNum (.unknown (strOf line))

/-- The line loop (`for (let i = 0; ...)` with `lineNum = i + 1`); each raw
line is trimmed before dispatch. -/
def processLines : ParseState → List (List Char) → Nat → ParseState
  | st, [], _ => st
  | st, l :: ls, n => processLines (processTrimmedLine st (jsTrim l) n) ls (n + 1)

/-- The post-pass over `map.dependencies`: each endpoint missing from the name
table contributes a line-0 error, `from` before `to`, in edge order. -/
def validationErrors (cmap : List (String × Component)) :
    List Dependency → List ParseError
  | [] => []
  | d :: ds =>
    ((if (alGet cmap d.from_).isNone then
        [{ line := 0, msg := .refNotDeclared d.from_ }] else []) ++
     (if (alGet cmap d.to_).isNone then
        [{ line := 0, msg := .refNotDeclared d.to_ }] else [])) ++
      validationErrors cmap ds

/-- `parseWardleyMap` from `src/parser.ts`: run the line loop, append the
dependency-validation errors, and return the map only when the error list is
empty (`errors.length === 0 ? map : null`). -/
def parseWardleyMap (source : String) : ParseResult :=
  let lines := splitLines source.toList
  let st := processLines initState lines 1
  let errs := st.errors ++ validationErrors st.componentMap st.map.dependencies
  { map := if errs = [] then some st.map else none, errors := errs }

/-! ## The layout engine (`src/renderer.ts`) -/

/-- `STAGE_POSITIONS`: fixed center-of-band fractions. -/
def STAGE_POSITIONS : EvolutionStage → ℚ
  | .genesis => 1/8
  | .custom => 3/8
  | .product => 5/8
  | .commodity => 7/8

/-- State of the Kahn-style loop in `topologicalSort`. -/
structure TopoState : Type where
  layers : List (String × Nat)
  inDegree : List (String × Int)
  queue : List String
deriving DecidableEq, Repr

/-- `(m.get x ?? 0)` for the layer map. -/
def layerOf (m : List (String × Nat)) (x : String) : Nat := (alGet m x).getD 0

/-- `(m.get x ?? 0)` for the in-degree map. -/
def degOf (m : List (String × Int)) (x : String) : Int := (alGet m x).getD 0

/-- The body of the neighbor loop in `topologicalSort`: decrement the
neighbor's in-degree, raise its layer to at least `currentLayer + 1`, and
enqueue it when its in-degree has just reached zero. -/
def topoStepNeighbor (cl : Nat) (st : TopoState) (nb : String) : TopoState :=
  let newDegree := degOf st.inDegree nb - 1
  let inDegree' := alSet st.inDegree nb newDegree
  let layers' := alSet st.layers nb (max (layerOf st.layers nb) (cl + 1))
  let queue' := if newDegree = 0 then st.queue ++ [nb] else st.queue
  { layers := layers', inDegree := inDegree', queue := queue' }

/-- Loop measure: queue length plus the positive part of all stored
in-degrees.  Every iteration of the `while` loop strictly decreases it
(the pop removes one element; a decrement that reaches zero moves one unit
from the in-degree sum to the queue), so it bounds the number of iterations
of the source's loop. -/
def sumPos (m : List (String × Int)) : Nat := (m.map fun p => p.2.toNat).sum

/-- See `sumPos`. -/
def topoMeasure (st : TopoState) : Nat := st.queue.length + sumPos st.inDegree

/-- The `while (queue.length > 0)` loop of `topologicalSort`.  The recursion
is paced by explicit fuel; `topologicalSort` passes `topoMeasure` of the
initial state, which is an upper bound on the number of iterations the
source's loop performs (`topoLoop_fuel_irrelevant` below proves the result
does not depend on the fuel from that point up), so the zero-fuel branch is
unreachable from `topologicalSort`. -/
def topoLoop (graph : List (String × List String)) :
    Nat → TopoState → List (String × Nat)
  | fuel, st =>
    match st.queue with
    | [] => st.layers
    | current :: rest =>
      match fuel with
      | 0 => st.layers
      | fuel' + 1 =>
        let cl := layerOf st.layers current
        let nbs := (alGet graph current).getD []
        topoLoop graph fuel'
          (nbs.foldl (topoStepNeighbor cl)
            { layers := st.layers, inDegree := st.inDegree, queue := rest })

/-- The initialization of `topologicalSort`: zero in-degrees and empty
adjacency for every component, then one pass over the dependencies
(`graph.get(dep.to)?.push(dep.from)`; `inDegree.set(dep.from, +1)`), then the
seeding of the queue with the components whose stored in-degree is exactly 0. -/
def topoInit (components : List Component) (dependencies : List Dependency) :
    (List (String × List String)) × TopoState :=
  let inDeg0 := components.foldl (fun m c => alSet m c.name (0 : Int)) []
  let graph0 := components.foldl (fun m c => alSet m c.name ([] : List String)) []
  let inDeg := dependencies.foldl
    (fun m d => alSet m d.from_ (degOf m d.from_ + 1)) inDeg0
  let graph := dependencies.foldl
    (fun g d =>
      match alGet g d.to_ with
      | some l => alSet g d.to_ (l ++ [d.from_])
      | none => g) graph0
  let seeds := components.foldl
    (fun acc c =>
      if alGet inDeg c.name = some 0 then
        (acc.1 ++ [c.name], alSet acc.2 c.name 0)
      else acc)
    (([] : List String), ([] : List (String × Nat)))
  (graph, { layers := seeds.2, inDegree := inDeg, queue := seeds.1 })

/-- `topologicalSort` from `src/renderer.ts`. -/
def topologicalSort (components : List Component)
    (dependencies : List Dependency) : List (String × Nat) :=
  let gs := topoInit components dependencies
  topoLoop gs.1 (topoMeasure gs.2) gs.2

/-- `Math.max(...layers.values(), 0)`. -/
def maxLayerOf (layers : List (String × Nat)) : Nat :=
  (layers.map fun p => p.2).foldr max 0

/-- Rounding used by the grouping key `comp.y?.toFixed(3)` of
`spreadOverlappingComponents`, on the exact rational value. -/
def roundTo3 (q : ℚ) : ℚ := (Int.floor (q * 1000 + 1/2) : ℚ) / 1000

/-- The grouping key `` `${comp.y?.toFixed(3)}_${comp.stage}` ``.  The string
key is injective in the pair (rounded y — `none` for an undefined y,
rendering as "undefined" — and stage), so the pair itself is used. -/
def spreadKey (c : Component) : Option ℚ × EvolutionStage :=
  (c.y.map roundTo3, c.stage)

/-- The adaptive spread width of `spreadOverlappingComponents`:
`baseSpread = 0.12`, `spreadMultiplier = Math.max(1, group.length / 3)`,
`spreadRange = baseSpread * spreadMultiplier`. -/
def spreadRangeFor (n : ℚ) : ℚ := (3/25) * max 1 (n / 3)

/-- `spreadOverlappingComponents`, applied to one component: its group is the
components sharing its key in list order (the Map groups by key in insertion
order, so membership and in-group index only depend on the component's own
key and on how many same-key components precede it — `pre` is the list of
preceding components).  `baseX = group[0].x!`, adaptive
`spread = 0.12 * max(1, n/3)`, member `i` offset
`(i - (n-1)/2) * (spread / max(n-1, 1))`. -/
def spreadAt (all pre : List Component) (c : Component) : Component :=
  let group := all.filter fun d => decide (spreadKey d = spreadKey c)
  if 1 < group.length then
    match group.head? with
    | none => c
    | some g0 =>
      match g0.x with
      | none => c
      | some baseX =>
        let n : ℚ := group.length
        let idx : ℚ := pre.countP fun d => decide (spreadKey d = spreadKey c)
        let offset : ℚ := (idx - (n - 1) / 2) * (spreadRangeFor n / max (n - 1) 1)
        { c with x := some (baseX + offset) }
  else c

/-- The traversal of `spreadOverlappingComponents` (each component is mutated
at most once, by its own group, so the in-place forEach is equivalent to this
per-component map that carries the list of preceding components). -/
def spreadGo (all : List Component) : List Component → List Component → List Component
  | _, [] => []
  | pre, c :: rest => spreadAt all pre c :: spreadGo all (pre ++ [c]) rest

/-- `spreadOverlappingComponents` from `src/renderer.ts`. -/
def spreadOverlappingComponents (components : List Component) : List Component :=
  spreadGo components [] components

/-- Replace the first list element satisfying `p` (the JS code mutates the
object returned by `Array.prototype.find`). -/
def updateFirst {α : Type} (p : α → Bool) (f : α → α) : List α → List α
  | [] => []
  | a :: rest => if p a then f a :: rest else a :: updateFirst p f rest

/-- One evolution edge of the alignment loop of `calculatePositions`:
`if (sourceComp && targetComp && sourceComp.y !== undefined)
   targetComp.y = sourceComp.y`. -/
def evoStep (comps : List Component) (evo : Evolution) : List Component :=
  match comps.find? fun c => c.name = evo.from_ with
  | none => comps
  | some s =>
    match comps.find? fun c => c.name = evo.to_ with
    | none => comps
    | some _ =>
      match s.y with
      | none => comps
      | some sy => updateFirst (fun c => c.name = evo.to_) (fun c => { c with y := some sy }) comps

/-- The evolution-alignment loop. -/
def applyEvolutions (evolutions : List Evolution) (comps : List Component) :
    List Component :=
  evolutions.foldl evoStep comps

/-- The first loop of `calculatePositions`: x from the evolution stage. -/
def stagePositioned (m : WardleyMap) : List Component :=
  m.components.map fun c => { c with x := some (STAGE_POSITIONS c.stage) }

/-- The second loop of `calculatePositions`: y from the topological layer,
`y = (maxLayer - layer) / (maxLayer + 1)` with `layers.get(name) ?? 0` and
`maxLayer = Math.max(...layers.values(), 0)`, then the in-loop anchor
override to `y = 0`. -/
def layered (m : WardleyMap) : List Component :=
  let layers := topologicalSort (stagePositioned m) m.dependencies
  let maxLayer := maxLayerOf layers
  (stagePositioned m).map fun c =>
    let layer := layerOf layers c.name
    let yv : ℚ := ((maxLayer : ℚ) - (layer : ℚ)) / ((maxLayer : ℚ) + 1)
    { c with y := some (if c.isAnchor then 0 else yv) }

/-- `calculatePositions` from `src/renderer.ts`: stage positioning of x,
topological layering of y with the anchor override, the evolution alignment,
and finally the overlap spread — in that order.  (The trailing console
logging of the source has no effect on the result and is not modeled.) -/
def calculatePositions (m : WardleyMap) : WardleyMap :=
  { m with components :=
      spreadOverlappingComponents (applyEvolutions m.evolutions (layered m)) }

/-! ## The standalone test tool (`generate-svg.js`)

Its parser and layout are separately maintained copies.  The textual
differences with semantic effect: the parser raises no unknown-syntax error
(an unrecognized line is silently skipped), has no `evolve <a> [s]` statement
form, pushes an `evolve a -> b [s]` edge without checking that the endpoints
are declared, runs no dependency post-pass, and its `parseDependencyChain`
never strips a `;label` from the `from` side; the layout has no
evolution-alignment loop and uses a fixed `spreadRange = 0.08` instead of the
adaptive `0.12 * max(1, n/3)`.  Its `topologicalSort` differs only by `|| 0`
in place of `?? 0`, which is equivalent on the integer values involved, so
the definition is shared.  The invalid-stage message lacks the ". Must be:"
suffix; messages are modeled by their `ErrMsg` constructor, so this purely
textual difference is identified. -/

namespace GenerateSvg

/-- The tool's `parseDependencyChain` loop: like the plugin's, but without
the `i === 0` stripping of the `from` segment. -/
def depChainGo : List (List Char) → List Dependency
  | a :: b :: rest =>
    let fromT := jsTrim a
    let toT := jsTrim b
    let toSplit := depSegSplit toT
    { from_ := strOf fromT, to_ := strOf toSplit.1,
      label := toSplit.2.map strOf } :: depChainGo (b :: rest)
  | _ => []

/-- The tool's `parseDependencyChain`. -/
def parseDependencyChain (line : List Char) : List Dependency :=
  depChainGo (splitArrows line)

/-- One line of the tool's parser loop (trimmed input), in source order:
empty/comment, `title`, component, anchor, `evolve a -> b [s]` (pushed with
no declaration checks), any line containing `->`, `annotation`, `note`, and
silently nothing otherwise. -/
def processTrimmedLine (st : ParseState) (line : List Char) (lineNum : Nat) :
    ParseState :=
  if line = [] then st
  else if "#".toList.isPrefixOf line then st
  else if "title ".toList.isPrefixOf line then
    { st with map := { st.map with title := some (strOf (jsTrim (line.drop 6))) } }
  else
    match rmatch componentPat line with
    | some gs =>
      let name := strOf (jsTrim (gs.getD 0 []))
      let stageStr := strOf (gs.getD 1 [])
      match stageOfString stageStr with
      | none => pushError st lineNum (.invalidStage stageStr)
      | some stg =>
        if (alGet st.componentMap name).isSome then
          pushError st lineNum (.duplicateComponent name)
        else addComponent st name stg false
    | none =>
    match rmatch anchorPat line with
    | some gs =>
      let name := strOf (jsTrim (gs.getD 0 []))
      let stageStr := strOf (gs.getD 1 [])
      match stageOfString stageStr with
      | none => pushError st lineNum (.invalidStage stageStr)
      | some stg =>
        if (alGet st.componentMap name).isSome then
          pushError st lineNum (.duplicateComponent name)
        else addComponent st name stg true
    | none =>
    match rmatch evolveArrowPat line with
    | some gs =>
      let f := strOf (jsTrim (gs.getD 0 []))
      let t := strOf (jsTrim (gs.getD 1 []))
      let stg := strOf (gs.getD 2 [])
      { st with map :=
          { st.map with evolutions :=
              st.map.evolutions ++ [{ from_ := f, to_ := t, stage := stg }] } }
    | none =>
    if containsArrow line then
      { st with map :=
          { st.map with dependencies :=
              st.map.dependencies ++ GenerateSvg.parseDependencyChain line } }
    else
    match rmatch annotationPat line with
    | some gs =>
      { st with map :=
          { st.map with annotations :=
              st.map.annotations ++
                [{ id := strOf (gs.getD 0 []), text := strOf (gs.getD 1 []) }] } }
    | none =>
    if "note ".toList.isPrefixOf line then
      { st with map := { st.map with notes := st.map.notes ++ [strOf (jsTrim (line.drop 5))] } }
    else st

/-- The tool's line loop. -/
def processLines : ParseState → List (List Char) → Nat → ParseState
  | st, [], _ => st
  | st, l :: ls, n =>
    GenerateSvg.processLines (GenerateSvg.processTrimmedLine st (jsTrim l) n) ls (n + 1)

/-- `parseWardleyMap` from `generate-svg.js`: no dependency post-pass. -/
def parseWardleyMap (source : String) : ParseResult :=
  let lines := splitLines source.toList
  let st := GenerateSvg.processLines initState lines 1
  { map := if st.errors = [] then some st.map else none, errors := st.errors }

/-- The tool's fixed `spreadRange = 0.08`. -/
def toolSpreadRange : ℚ := 2/25

/-- The tool's `spreadOverlappingComponents`, per component (same grouping
key; fixed spread width; `baseX = group[0].x` with no non-null assertion). -/
def spreadAt (all pre : List Component) (c : Component) : Component :=
  let group := all.filter fun d => decide (spreadKey d = spreadKey c)
  if 1 < group.length then
    match group.head? with
    | none => c
    | some g0 =>
      match g0.x with
      | none => c
      | some baseX =>
        let n : ℚ := group.length
        let idx : ℚ := pre.countP fun d => decide (spreadKey d = spreadKey c)
        let offset : ℚ := (idx - (n - 1) / 2) * (toolSpreadRange / max (n - 1) 1)
        { c with x := some (baseX + offset) }
  else c

/-- Traversal of the tool's spread (as for the plugin). -/
def spreadGo (all : List Component) : List Component → List Component → List Component
  | _, [] => []
  | pre, c :: rest => GenerateSvg.spreadAt all pre c :: GenerateSvg.spreadGo all (pre ++ [c]) rest

/-- `spreadOverlappingComponents` from `generate-svg.js`. -/
def spreadOverlappingComponents (components : List Component) : List Component :=
  GenerateSvg.spreadGo components [] components

/-- `calculatePositions` from `generate-svg.js`: stage x, layered y with the
anchor override, then the spread — and no evolution alignment. -/
def calculatePositions (m : WardleyMap) : WardleyMap :=
  let comps1 := m.components.map fun c => { c with x := some (STAGE_POSITIONS c.stage) }
  let layers := topologicalSort comps1 m.dependencies
  let maxLayer := maxLayerOf layers
  let comps2 := comps1.map fun c =>
    let layer := layerOf layers c.name
    let yv : ℚ := ((maxLayer : ℚ) - (layer : ℚ)) / ((maxLayer : ℚ) + 1)
    { c with y := some (if c.isAnchor then 0 else yv) }
  let comps3 := GenerateSvg.spreadOverlappingComponents comps2
  { m with components := comps3 }

end GenerateSvg

/-- The parse-then-layout pipeline of the plugin (`parseWardleyMap` from
`src/parser.ts` followed by the position computation that `renderWardleyMap`
performs on the parsed map). -/
def pipeline (text : String) : Option WardleyMap :=
  match (parseWardleyMap text).map with
  | some m => some (calculatePositions m)
  | none => none

/-- The parse-then-layout pipeline of `generate-svg.js`. -/
def toolPipeline (text : String) : Option WardleyMap :=
  match (GenerateSvg.parseWardleyMap text).map with
  | some m => some (GenerateSvg.calculatePositions m)
  | none => none

/-! ## Observation helpers used by the theorem statements -/

/-- The final y stored for the first component named `x` (the object that
`components.find(c => c.name === x)` returns). -/
def findYc (comps : List Component) (x : String) : Option ℚ :=
  (comps.find? fun c => c.name = x).bind fun c => c.y

/-- `findYc` on a whole map. -/
def findY (m : WardleyMap) (x : String) : Option ℚ := findYc m.components x

/-- The final x stored for the first component named `x`. -/
def findXc (comps : List Component) (x : String) : Option ℚ :=
  (comps.find? fun c => c.name = x).bind fun c => c.x

/-- `findXc` on a whole map. -/
def findX (m : WardleyMap) (x : String) : Option ℚ := findXc m.components x

/-- A structurally valid declared graph, as the parser guarantees on success:
component names are unique and every dependency endpoint is declared. -/
def ValidGraph (comps : List Component) (deps : List Dependency) : Prop :=
  (comps.map fun c => c.name).Nodup ∧
    ∀ d ∈ deps, d.from_ ∈ (comps.map fun c => c.name) ∧
      d.to_ ∈ (comps.map fun c => c.name)

/-- Acyclicity of the dependency relation, by its standard finite
characterization: some ranking strictly decreases along every edge
(`from -> to` meaning "from depends on to"). -/
def AcyclicDeps (deps : List Dependency) : Prop :=
  ∃ rank : String → Nat, ∀ d ∈ deps, rank d.to_ < rank d.from_

/-! ## Invariants for the layering proof

The correctness argument for `topologicalSort` (claim C3) is a loop
invariant for the Kahn-style while loop.  `popped` is the (ghost) list of
nodes the loop has dequeued so far, in order. -/

/-- Number of dependency edges leaving `x`: the initial stored in-degree of
`x` in the reversed graph. -/
def depOutCount (deps : List Dependency) (x : String) : Nat :=
  deps.countP fun d => decide (d.from_ = x)

/-- Number of dependency edges leaving `x` whose target has already been
popped. -/
def processedCount (deps : List Dependency) (popped : List String) (x : String) : Nat :=
  deps.countP fun d => decide (d.from_ = x) && decide (d.to_ ∈ popped)

/-- The invariant of the while loop of `topologicalSort`: the queue holds
exactly the ready unpopped nodes, every stored in-degree counts the not yet
processed outgoing edges, every popped node has all its outgoing edges
processed, and the layer of the source of every processed edge strictly
exceeds the (now final) layer of its target. -/
structure TopoInv (comps : List Component) (deps : List Dependency)
    (popped : List String) (st : TopoState) : Prop where
  popped_names : ∀ x ∈ popped, x ∈ comps.map fun c => c.name
  queue_names : ∀ x ∈ st.queue, x ∈ comps.map fun c => c.name
  queue_deg : ∀ x ∈ st.queue, alGet st.inDegree x = some 0
  all_nodup : (st.queue ++ popped).Nodup
  deg_eq : ∀ x ∈ comps.map (fun c => c.name), alGet st.inDegree x =
    some ((depOutCount deps x : ℤ) - (processedCount deps popped x : ℤ))
  ready_queued : ∀ x ∈ comps.map (fun c => c.name),
    alGet st.inDegree x = some 0 → x ∉ popped → x ∈ st.queue
  popped_layers : ∀ t ∈ popped, ∀ d ∈ deps, d.to_ = t →
    layerOf st.layers t + 1 ≤ layerOf st.layers d.from_
  popped_closed : ∀ t ∈ popped, ∀ d ∈ deps, d.from_ = t → d.to_ ∈ popped

/-- The invariant threaded through the neighbor fold of one loop iteration:
`current` is the node being popped, `cl` its layer, `lay0` the layer map at
the start of the iteration, and `ds1` the prefix of
`deps.filter (to_ = current)` whose sources have been processed so far. -/
structure FoldInv (comps : List Component) (deps : List Dependency)
    (popped : List String) (current : String) (cl : Nat)
    (lay0 : List (String × Nat)) (ds1 : List Dependency) (st : TopoState) : Prop where
  deg_eq : ∀ x ∈ comps.map (fun c => c.name), alGet st.inDegree x =
    some ((depOutCount deps x : ℤ) - (processedCount deps popped x : ℤ) -
      (ds1.countP fun d => decide (d.from_ = x) : ℤ))
  queue_names : ∀ x ∈ st.queue, x ∈ comps.map fun c => c.name
  queue_deg : ∀ x ∈ st.queue, alGet st.inDegree x = some 0
  all_nodup : (st.queue ++ (popped ++ [current])).Nodup
  ready_queued : ∀ x ∈ comps.map (fun c => c.name),
    alGet st.inDegree x = some 0 → x ∉ popped ++ [current] → x ∈ st.queue
  layers_mono : ∀ x, layerOf lay0 x ≤ layerOf st.layers x
  layers_frozen : ∀ x ∈ popped ++ [current], layerOf st.layers x = layerOf lay0 x
  processed_layer : ∀ d ∈ ds1, cl + 1 ≤ layerOf st.layers d.from_

/-! ## Theorems -/

set_option maxRecDepth 8000

/-- C1: for every input text, `parseWardleyMap` returns a null map exactly
when the accumulated error list is non-empty; an empty error list yields a
non-null map. -/
theorem C1_fail_closed (source : String) :
    (parseWardleyMap source).map = none ↔ (parseWardleyMap source).errors ≠ [] := by
  unfold parseWardleyMap
  set st := processLines initState (splitLines source.toList) 1 with hst
  by_cases h : st.errors ++ validationErrors st.componentMap st.map.dependencies = [] <;>
    simp [h]

/-- C7: parsing and laying out the same text twice yields identical error
lists, graphs and coordinates.  Parse and layout are pure functions of the
text in the source (no global state, no randomness; the only side effect is
console logging, which does not feed back into the result), so repeatability
is reflexivity of the embedded pipeline. -/
theorem C7_deterministic (text : String) :
    parseWardleyMap text = parseWardleyMap text ∧ pipeline text = pipeline text :=
  ⟨rfl, rfl⟩

/-- C8 counterexample: on the chain `A -> B; uses -> C` the middle segment's
label is stripped from the `to` of the first edge but retained in the `from`
of the second edge, so a produced endpoint does keep its `;<label>` suffix. -/
theorem C8_counterexample :
    parseDependencyChain ("A -> B; uses -> C".toList) =
      [{ from_ := "A", to_ := "B", label := some "uses" },
       { from_ := "B; uses", to_ := "C", label := none }] ∧
    ∃ d ∈ parseDependencyChain ("A -> B; uses -> C".toList), ';' ∈ d.from_.toList := by
  decide

/-- C2: seven same-stage components with no dependencies all land in one
overlap group; the adaptive spread (width `0.12 * 7/3 = 0.28`) pushes the
first one to `x = 0.125 - 0.14 = -3/200`, outside the unit square that the
claim (and the `(0-1 range)` comment on the position fields in
`src/types.ts`) promises. -/
theorem C2_eval :
    ((pipeline "component a [genesis]\ncomponent b [genesis]\ncomponent c [genesis]\ncomponent d [genesis]\ncomponent e [genesis]\ncomponent f [genesis]\ncomponent g [genesis]").bind
      fun m => findX m "a") = some (-3/200) ∧ ¬ (0 ≤ (-3/200 : ℚ)) := by
  refine ⟨by with_unfolding_all rfl, by norm_num⟩

/-- C4 counterexample: the evolution-alignment loop runs after the anchor
override, so the anchor `A`, the target of `evolve T -> A`, ends at the y of
`T` (1/2), not at 0. -/
theorem C4_counterexample :
    ((pipeline "anchor A [genesis]\ncomponent S [custom]\ncomponent T [product]\nS -> T\nevolve T -> A [commodity]").bind
      fun m => findY m "A") = some (1/2) ∧
    ((pipeline "anchor A [genesis]\ncomponent S [custom]\ncomponent T [product]\nS -> T\nevolve T -> A [commodity]").map
      fun m => (m.components.find? fun c => c.name = "A").map fun c => c.isAnchor)
      = some (some true) ∧
    ((1 : ℚ)/2 ≠ 0) := by
  refine ⟨by with_unfolding_all rfl, by with_unfolding_all rfl, by norm_num⟩

/-- C5 counterexample: with the chain declared as `evolve B -> C` before
`evolve A -> B`, processing `A -> B` second moves `B` (to y 0) after `C` has
already copied the old y of `B` (1/2), so the edge `B -> C` ends with
`y(C) ≠ y(B)`. -/
theorem C5_counterexample :
    ((pipeline "component X [genesis]\ncomponent A [custom]\ncomponent B [product]\ncomponent C [commodity]\nevolve B -> C [commodity]\nevolve A -> B [product]\nA -> X").map
      fun m => m.evolutions) =
      some [{ from_ := "B", to_ := "C", stage := "commodity" },
            { from_ := "A", to_ := "B", stage := "product" }] ∧
    ((pipeline "component X [genesis]\ncomponent A [custom]\ncomponent B [product]\ncomponent C [commodity]\nevolve B -> C [commodity]\nevolve A -> B [product]\nA -> X").bind
      fun m => findY m "C") = some (1/2) ∧
    ((pipeline "component X [genesis]\ncomponent A [custom]\ncomponent B [product]\ncomponent C [commodity]\nevolve B -> C [commodity]\nevolve A -> B [product]\nA -> X").bind
      fun m => findY m "B") = some 0 ∧
    ((1 : ℚ)/2 ≠ 0) := by
  refine ⟨by with_unfolding_all rfl, by with_unfolding_all rfl,
    by with_unfolding_all rfl, by norm_num⟩

/-- C9 counterexample: the two copies disagree already on error decisions
(the plugin parser reports unknown syntax and returns a null map, the tool
accepts silently) and on placed coordinates (two overlapping genesis
components get x spread by 0.12 in the plugin but 0.08 in the tool). -/
theorem C9_counterexample :
    (parseWardleyMap "blah").errors = [{ line := 1, msg := .unknown "blah" }] ∧
    (GenerateSvg.parseWardleyMap "blah").errors = [] ∧
    (parseWardleyMap "blah").map = none ∧
    (GenerateSvg.parseWardleyMap "blah").map ≠ none ∧
    ((pipeline "component A [genesis]\ncomponent B [genesis]").bind (fun m => findX m "A") ≠
      (toolPipeline "component A [genesis]\ncomponent B [genesis]").bind fun m => findX m "A") := by
  refine ⟨by decide, by decide, by decide, by decide, ?_⟩
  have h1 : (pipeline "component A [genesis]\ncomponent B [genesis]").bind
      (fun m => findX m "A") = some (13/200) := by with_unfolding_all rfl
  have h2 : (toolPipeline "component A [genesis]\ncomponent B [genesis]").bind
      (fun m => findX m "A") = some (17/200) := by with_unfolding_all rfl
  rw [h1, h2]
  intro h
  have := Option.some.inj h
  norm_num at this

/-- Strings packed from character lists unpack to the same list. -/
theorem toList_strOf (l : List Char) : (strOf l).toList = l := rfl

/-- Trimming only removes characters. -/
theorem mem_of_mem_jsTrim {c : Char} {l : List Char} (h : c ∈ jsTrim l) : c ∈ l := by
  unfold jsTrim at h
  rw [List.mem_reverse] at h
  have h1 := (List.dropWhile_sublist (l := (l.dropWhile jsWhitespaceB).reverse)
    (p := jsWhitespaceB)).mem h
  rw [List.mem_reverse] at h1
  exact (List.dropWhile_sublist (l := l) (p := jsWhitespaceB)).mem h1

/-- The part of a segment before its first semicolon contains none. -/
theorem semi_notin_takeWhile (t : List Char) :
    ';' ∉ t.takeWhile fun c => !(c = ';') := by
  intro h
  have := List.mem_takeWhile_imp h
  simp at this

/-- The name side produced by `depSegSplit` is semicolon-free. -/
theorem semi_notin_depSegSplit_fst (t : List Char) : ';' ∉ (depSegSplit t).1 := by
  unfold depSegSplit
  by_cases h : (t.takeWhile fun c => !(c = ';')).length = t.length
  · simp only [h, if_true]
    have hpre : t.takeWhile (fun c => !(c = ';')) = t :=
      (List.takeWhile_prefix _).eq_of_length h
    intro hc
    exact semi_notin_takeWhile t (by rw [hpre]; exact hc)
  · simp only [h, if_false]
    intro hc
    exact semi_notin_takeWhile t (mem_of_mem_jsTrim hc)

/-- The chain loop produces one edge per adjacent pair of segments. -/
theorem depChainGo_length :
    ∀ (isFirst : Bool) (parts : List (List Char)),
      (depChainGo isFirst parts).length = parts.length - 1
  | _, [] => rfl
  | _, [_] => rfl
  | f, a :: b :: rest => by
    have ih := depChainGo_length false (b :: rest)
    simp only [depChainGo, List.length_cons] at ih ⊢
    omega

/-- Every `to` endpoint the chain loop produces is semicolon-free. -/
theorem depChainGo_to_semifree :
    ∀ (isFirst : Bool) (parts : List (List Char)),
      ∀ d ∈ depChainGo isFirst parts, ';' ∉ d.to_.toList
  | _, [], d, hd => by simp [depChainGo] at hd
  | _, [_], d, hd => by simp [depChainGo] at hd
  | f, a :: b :: rest, d, hd => by
    simp only [depChainGo, List.mem_cons] at hd
    rcases hd with h | h
    · subst h
      simpa [toList_strOf] using semi_notin_depSegSplit_fst (jsTrim b)
    · exact depChainGo_to_semifree false (b :: rest) d h

/-- C8 amended: a dependency-chain line splits on `->` into one edge per
adjacent pair of segments; every edge's `to` endpoint has its `;label` suffix
stripped (and so does the `from` of the first edge), but an inner segment's
suffix survives in the `from` of the following edge, which is the raw trimmed
segment. -/
theorem C8_amended (line : List Char) :
    (parseDependencyChain line).length = (splitArrows line).length - 1 ∧
    (∀ d ∈ parseDependencyChain line, ';' ∉ d.to_.toList) ∧
    (∀ d, (parseDependencyChain line).head? = some d → ';' ∉ d.from_.toList) := by
  refine ⟨depChainGo_length true (splitArrows line),
    fun d hd => depChainGo_to_semifree true (splitArrows line) d hd, ?_⟩
  intro d hd
  unfold parseDependencyChain at hd
  rcases hparts : splitArrows line with _ | ⟨a, _ | ⟨b, rest⟩⟩ <;>
    rw [hparts] at hd
  · simp [depChainGo] at hd
  · simp [depChainGo] at hd
  · simp only [depChainGo, List.head?_cons, Option.some.injEq] at hd
    subst hd
    simp only [toList_strOf, if_true]
    intro hc
    exact semi_notin_takeWhile (jsTrim a) (mem_of_mem_jsTrim hc)

/-- Witness for `C8_amended` at the chain `A -> B; uses -> C`. -/
theorem C8_amended_witness :
    (("A -> B; uses -> C".toList ≠ ([] : List Char)) ∧
      (parseDependencyChain ("A -> B; uses -> C".toList)).length =
        (splitArrows ("A -> B; uses -> C".toList)).length - 1) ∧
    (∀ d ∈ parseDependencyChain ("A -> B; uses -> C".toList), ';' ∉ d.to_.toList) := by
  refine ⟨⟨by decide, (C8_amended ("A -> B; uses -> C".toList)).1⟩,
    (C8_amended ("A -> B; uses -> C".toList)).2.1⟩

/-- C9 amended: the two copies are not interchangeable — the renderer's
adaptive spread width strictly exceeds the tool's fixed 0.08 at every group
size, and there are texts on which the plugin parser reports errors while the
tool accepts silently. -/
theorem C9_amended :
    (∀ n : ℕ, GenerateSvg.toolSpreadRange < spreadRangeFor n) ∧
    (∃ text : String, (parseWardleyMap text).errors ≠ [] ∧
      (GenerateSvg.parseWardleyMap text).errors = []) := by
  constructor
  · intro n
    unfold GenerateSvg.toolSpreadRange spreadRangeFor
    have h1 : (1 : ℚ) ≤ max 1 ((n : ℚ) / 3) := le_max_left _ _
    have h2 : (3/25 : ℚ) * 1 ≤ 3/25 * max 1 ((n : ℚ) / 3) :=
      mul_le_mul_of_nonneg_left h1 (by norm_num)
    calc (2/25 : ℚ) < 3/25 * 1 := by norm_num
      _ ≤ 3/25 * max 1 ((n : ℚ) / 3) := h2
  · exact ⟨"blah", by decide, by decide⟩

/-- Setting a key then reading it returns the value. -/
theorem alGet_alSet_self {α : Type} (m : List (String × α)) (k : String) (v : α) :
    alGet (alSet m k v) k = some v := by
  induction m with
  | nil => simp [alGet, alSet]
  | cons p rest ih =>
    by_cases h : p.1 = k <;> simp [alGet, alSet, h, ih]

/-- Setting one key does not change another key's value. -/
theorem alGet_alSet_ne {α : Type} (m : List (String × α)) (k k' : String) (v : α)
    (h : k ≠ k') : alGet (alSet m k v) k' = alGet m k' := by
  induction m with
  | nil => simp [alGet, alSet, h]
  | cons p rest ih =>
    by_cases hp : p.1 = k
    · subst hp
      simp [alGet, alSet, h]
    · simp only [alSet, hp, if_false]
      by_cases hq : p.1 = k' <;> simp [alGet, hq, ih]

/-- How one `Map.set` moves the positive-part sum of the stored in-degrees. -/
theorem sumPos_alSet (m : List (String × Int)) (k : String) (v : Int) :
    sumPos (alSet m k v) + ((alGet m k).getD 0).toNat = sumPos m + v.toNat := by
  induction m with
  | nil => simp [sumPos, alSet, alGet]
  | cons p rest ih =>
    obtain ⟨pk, pv⟩ := p
    by_cases h : pk = k
    · subst h
      simp [sumPos, alSet, alGet]
      omega
    · simp only [alSet, h, if_false, sumPos, List.map_cons, List.sum_cons, alGet]
      simp only [sumPos] at ih
      omega

/-- Processing one neighbor never increases the loop measure. -/
theorem topoMeasure_stepNeighbor (cl : Nat) (st : TopoState) (nb : String) :
    topoMeasure (topoStepNeighbor cl st nb) ≤ topoMeasure st := by
  unfold topoStepNeighbor topoMeasure degOf
  have hs := sumPos_alSet st.inDegree nb ((alGet st.inDegree nb).getD 0 - 1)
  set d : Int := (alGet st.inDegree nb).getD 0 with hd
  by_cases h : d - 1 = 0
  · have hd1 : d = 1 := by omega
    simp only [h, if_true, List.length_append, List.length_cons, List.length_nil]
    rw [hd1] at hs
    norm_num at hs
    omega
  · simp only [h, if_false]
    have : (d - 1).toNat ≤ d.toNat := Int.toNat_le_toNat (by omega)
    omega

/-- Processing a neighbor list never increases the loop measure. -/
theorem topoMeasure_fold (cl : Nat) (nbs : List String) :
    ∀ st : TopoState,
      topoMeasure (nbs.foldl (topoStepNeighbor cl) st) ≤ topoMeasure st := by
  induction nbs with
  | nil => intro st; simp
  | cons nb rest ih =>
    intro st
    calc topoMeasure ((nb :: rest).foldl (topoStepNeighbor cl) st)
        = topoMeasure (rest.foldl (topoStepNeighbor cl) (topoStepNeighbor cl st nb)) := rfl
      _ ≤ topoMeasure (topoStepNeighbor cl st nb) := ih _
      _ ≤ topoMeasure st := topoMeasure_stepNeighbor cl st nb

/-- Unfolding `topoLoop` on an empty queue. -/
theorem topoLoop_nil (graph : List (String × List String)) (fuel : Nat)
    (lay : List (String × Nat)) (deg : List (String × Int)) :
    topoLoop graph fuel { layers := lay, inDegree := deg, queue := [] } = lay := by
  cases fuel <;> rfl

/-- Unfolding `topoLoop` on a non-empty queue with fuel available. -/
theorem topoLoop_succ (graph : List (String × List String)) (fuel : Nat)
    (lay : List (String × Nat)) (deg : List (String × Int))
    (current : String) (rest : List String) :
    topoLoop graph (fuel + 1) { layers := lay, inDegree := deg, queue := current :: rest } =
      topoLoop graph fuel
        (((alGet graph current).getD []).foldl
          (topoStepNeighbor (layerOf lay current))
          { layers := lay, inDegree := deg, queue := rest }) := rfl

/-- The result of the loop does not depend on the fuel, as long as the fuel
is at least the measure of the state: the fuel passed by `topologicalSort` is
an upper bound on the number of iterations the while loop of the source
performs, and the zero-fuel branch is never taken from there. -/
theorem topoLoop_fuel (graph : List (String × List String)) :
    ∀ (fuel1 fuel2 : Nat) (st : TopoState), topoMeasure st ≤ fuel1 →
      topoMeasure st ≤ fuel2 → topoLoop graph fuel1 st = topoLoop graph fuel2 st := by
  intro fuel1
  induction fuel1 with
  | zero =>
    intro fuel2 st h1 h2
    obtain ⟨lay, deg, q⟩ := st
    have h1' : q.length + sumPos deg ≤ 0 := by simpa [topoMeasure] using h1
    have hq : q = [] := List.length_eq_zero.mp (by omega)
    subst hq
    rw [topoLoop_nil, topoLoop_nil]
  | succ fuel ih =>
    intro fuel2 st h1 h2
    obtain ⟨lay, deg, q⟩ := st
    have h1' : q.length + sumPos deg ≤ fuel + 1 := by simpa [topoMeasure] using h1
    have h2' : q.length + sumPos deg ≤ fuel2 := by simpa [topoMeasure] using h2
    rcases q with _ | ⟨current, rest⟩
    · rw [topoLoop_nil, topoLoop_nil]
    · rcases fuel2 with _ | fuel2'
      · exfalso
        simp at h2'
      · rw [topoLoop_succ, topoLoop_succ]
        have hfold : topoMeasure
            (((alGet graph current).getD []).foldl
              (topoStepNeighbor (layerOf lay current))
              { layers := lay, inDegree := deg, queue := rest }) ≤
            rest.length + sumPos deg := by
          have := topoMeasure_fold (layerOf lay current)
            ((alGet graph current).getD [])
            { layers := lay, inDegree := deg, queue := rest }
          simpa [topoMeasure] using this
        apply ih fuel2'
        · simp only [List.length_cons] at h1'
          omega
        · simp only [List.length_cons] at h2'
          omega


theorem spreadAt_cases (all pre : List Component) (c : Component) :
    spreadAt all pre c = c ∨
      ∃ q : ℚ, spreadAt all pre c = { c with x := some q } := by
  simp only [spreadAt]
  split
  · split
    · exact Or.inl rfl
    · split
      · exact Or.inl rfl
      · exact Or.inr ⟨_, rfl⟩
  · exact Or.inl rfl

theorem spreadAt_fields (all pre : List Component) (c : Component) :
    (spreadAt all pre c).name = c.name ∧ (spreadAt all pre c).stage = c.stage ∧
    (spreadAt all pre c).isAnchor = c.isAnchor ∧ (spreadAt all pre c).y = c.y ∧
    (c.x.isSome = true → (spreadAt all pre c).x.isSome = true) := by
  rcases spreadAt_cases all pre c with h | ⟨q, h⟩ <;> rw [h] <;> simp

theorem spreadGo_mem (all : List Component) :
    ∀ (pre l : List Component) (c' : Component), c' ∈ spreadGo all pre l →
      ∃ c ∈ l, c'.name = c.name ∧ c'.stage = c.stage ∧
        c'.isAnchor = c.isAnchor ∧ c'.y = c.y ∧
        (c.x.isSome = true → c'.x.isSome = true) := by
  intro pre l
  induction l generalizing pre with
  | nil => intro c' h; simp [spreadGo] at h
  | cons c rest ih =>
    intro c' h
    simp only [spreadGo, List.mem_cons] at h
    rcases h with h | h
    · subst h
      exact ⟨c, List.mem_cons_self c rest, (spreadAt_fields all pre c).1,
        (spreadAt_fields all pre c).2.1, (spreadAt_fields all pre c).2.2.1,
        (spreadAt_fields all pre c).2.2.2.1, (spreadAt_fields all pre c).2.2.2.2⟩
    · obtain ⟨c0, hc0, hfields⟩ := ih (pre ++ [c]) c' h
      exact ⟨c0, List.mem_cons_of_mem c hc0, hfields⟩

theorem findYc_spreadGo (all : List Component) (x : String) :
    ∀ (l pre : List Component), findYc (spreadGo all pre l) x = findYc l x := by
  intro l
  induction l with
  | nil => intro pre; rfl
  | cons c rest ih =>
    intro pre
    have hf := spreadAt_fields all pre c
    by_cases h : c.name = x
    · rw [findYc, findYc, spreadGo,
        List.find?_cons_of_pos _ (by simp [hf.1, h]),
        List.find?_cons_of_pos _ (by simp [h])]
      simp [hf.2.2.2.1]
    · rw [findYc, findYc, spreadGo,
        List.find?_cons_of_neg _ (by simp [hf.1, h]),
        List.find?_cons_of_neg _ (by simp [h])]
      exact ih (pre ++ [c])

theorem updateFirst_mem {α : Type} (p : α → Bool) (f : α → α) :
    ∀ (l : List α) (c' : α), c' ∈ updateFirst p f l →
      c' ∈ l ∨ ∃ c ∈ l, p c = true ∧ c' = f c := by
  intro l
  induction l with
  | nil => intro c' h; simp [updateFirst] at h
  | cons a rest ih =>
    intro c' h
    simp only [updateFirst] at h
    by_cases hpa : p a
    · rw [if_pos hpa] at h
      rcases List.mem_cons.mp h with h | h
      · exact Or.inr ⟨a, List.mem_cons_self a rest, hpa, h⟩
      · exact Or.inl (List.mem_cons_of_mem a h)
    · rw [if_neg hpa] at h
      rcases List.mem_cons.mp h with h | h
      · exact Or.inl (h ▸ List.mem_cons_self a rest)
      · rcases ih c' h with h' | ⟨c, hc, hpc, hfc⟩
        · exact Or.inl (List.mem_cons_of_mem a h')
        · exact Or.inr ⟨c, List.mem_cons_of_mem a hc, hpc, hfc⟩

theorem evoStep_mem_of_ne (comps : List Component) (e : Evolution) (c' : Component)
    (h : c' ∈ evoStep comps e) (hne : c'.name ≠ e.to_) : c' ∈ comps := by
  unfold evoStep at h
  split at h
  · exact h
  · split at h
    · exact h
    · split at h
      · exact h
      · rcases updateFirst_mem _ _ comps c' h with h' | ⟨c, hc, hpc, hfc⟩
        · exact h'
        · exfalso
          apply hne
          have : c.name = e.to_ := by simpa using hpc
          rw [hfc]
          exact this

theorem applyEvolutions_mem_of_ne :
    ∀ (evos : List Evolution) (comps : List Component) (c' : Component),
      c' ∈ applyEvolutions evos comps → (∀ e ∈ evos, e.to_ ≠ c'.name) → c' ∈ comps := by
  intro evos
  induction evos with
  | nil => intro comps c' h _; exact h
  | cons e rest ih =>
    intro comps c' h hne
    have h1 : c' ∈ evoStep comps e :=
      ih (evoStep comps e) c' h fun e' he' => hne e' (List.mem_cons_of_mem e he')
    exact evoStep_mem_of_ne comps e c' h1
      fun hn => hne e (List.mem_cons_self e rest) hn.symm

theorem evoStep_pred (P : Component → Prop)
    (hP : ∀ (c : Component) (q : ℚ), P c → P { c with y := some q })
    (comps : List Component) (e : Evolution) (h : ∀ c ∈ comps, P c) :
    ∀ c' ∈ evoStep comps e, P c' := by
  intro c' hc'
  unfold evoStep at hc'
  split at hc'
  · exact h c' hc'
  · split at hc'
    · exact h c' hc'
    · split at hc'
      · exact h c' hc'
      · rcases updateFirst_mem _ _ comps c' hc' with h' | ⟨c, hc, -, hfc⟩
        · exact h c' h'
        · exact hfc ▸ hP c _ (h c hc)

theorem applyEvolutions_pred (P : Component → Prop)
    (hP : ∀ (c : Component) (q : ℚ), P c → P { c with y := some q }) :
    ∀ (evos : List Evolution) (comps : List Component),
      (∀ c ∈ comps, P c) → ∀ c' ∈ applyEvolutions evos comps, P c' := by
  intro evos
  induction evos with
  | nil => intro comps h c' hc'; exact h c' hc'
  | cons e rest ih =>
    intro comps h c' hc'
    exact ih (evoStep comps e) (evoStep_pred P hP comps e h) c' hc'

theorem updateFirst_map_name (p : Component → Bool) (f : Component → Component)
    (hf : ∀ c, (f c).name = c.name) :
    ∀ l : List Component,
      (updateFirst p f l).map (fun c => c.name) = l.map fun c => c.name := by
  intro l
  induction l with
  | nil => rfl
  | cons a rest ih =>
    simp only [updateFirst]
    by_cases hpa : p a
    · rw [if_pos hpa]
      simp [hf a]
    · rw [if_neg hpa]
      simp [ih]

theorem names_evoStep (comps : List Component) (e : Evolution) :
    (evoStep comps e).map (fun c => c.name) = comps.map fun c => c.name := by
  unfold evoStep
  split
  · rfl
  · split
    · rfl
    · split
      · rfl
      · apply updateFirst_map_name
        intro c
        rfl

theorem names_applyEvolutions :
    ∀ (evos : List Evolution) (comps : List Component),
      (applyEvolutions evos comps).map (fun c => c.name) = comps.map fun c => c.name := by
  intro evos
  induction evos with
  | nil => intro comps; rfl
  | cons e rest ih =>
    intro comps
    calc (applyEvolutions (e :: rest) comps).map (fun c => c.name)
        = (applyEvolutions rest (evoStep comps e)).map (fun c => c.name) := rfl
      _ = (evoStep comps e).map (fun c => c.name) := ih _
      _ = comps.map (fun c => c.name) := names_evoStep comps e

theorem find?_cons_pos {α : Type} (p : α → Bool) (a : α) (l : List α)
    (h : p a = true) : (a :: l).find? p = some a := by
  simp [List.find?, h]

theorem find?_cons_neg {α : Type} (p : α → Bool) (a : α) (l : List α)
    (h : p a = false) : (a :: l).find? p = l.find? p := by
  simp [List.find?, h]

theorem find?_updateFirst_same {α : Type} (p : α → Bool) (f : α → α)
    (hp : ∀ a, p (f a) = p a) :
    ∀ l : List α, (updateFirst p f l).find? p = (l.find? p).map f := by
  intro l
  induction l with
  | nil => rfl
  | cons a rest ih =>
    simp only [updateFirst]
    by_cases hpa : p a
    · rw [if_pos hpa, List.find?_cons_of_pos _ ((hp a).trans hpa),
        List.find?_cons_of_pos _ hpa]
      rfl
    · rw [if_neg hpa, List.find?_cons_of_neg _ hpa, List.find?_cons_of_neg _ hpa, ih]

theorem find?_updateFirst_ne (t x : String) (hxt : x ≠ t) (f : Component → Component)
    (hf : ∀ c, (f c).name = c.name) :
    ∀ l : List Component,
      (updateFirst (fun c => c.name = t) f l).find? (fun c => decide (c.name = x)) =
        l.find? fun c => decide (c.name = x) := by
  intro l
  induction l with
  | nil => rfl
  | cons a rest ih =>
    simp only [updateFirst]
    by_cases hpa : a.name = t
    · rw [if_pos (by simp [hpa])]
      have h1 : (fun c : Component => decide (c.name = x)) (f a) = false := by
        simp only [hf a, hpa, decide_eq_false_iff_not]
        exact fun h => hxt h.symm
      have h2 : (fun c : Component => decide (c.name = x)) a = false := by
        simp only [hpa, decide_eq_false_iff_not]
        exact fun h => hxt h.symm
      rw [find?_cons_neg (fun c : Component => decide (c.name = x)) (f a) rest h1,
        find?_cons_neg (fun c : Component => decide (c.name = x)) a rest h2]
    · rw [if_neg (by simp [hpa])]
      by_cases hax : a.name = x
      · rw [find?_cons_pos (fun c : Component => decide (c.name = x)) a
            (updateFirst (fun c => decide (c.name = t)) f rest) (by simp [hax]),
          find?_cons_pos (fun c : Component => decide (c.name = x)) a rest (by simp [hax])]
      · rw [find?_cons_neg (fun c : Component => decide (c.name = x)) a
            (updateFirst (fun c => decide (c.name = t)) f rest) (by simp [hax]),
          find?_cons_neg (fun c : Component => decide (c.name = x)) a rest (by simp [hax]), ih]

theorem evoStep_aligns (comps : List Component) (e : Evolution)
    (hfrom : e.from_ ∈ comps.map fun c => c.name)
    (hto : e.to_ ∈ comps.map fun c => c.name)
    (hy : ∀ c ∈ comps, c.y.isSome = true) :
    ∃ q : ℚ, findYc (evoStep comps e) e.to_ = some q ∧
      findYc (evoStep comps e) e.from_ = some q := by
  obtain ⟨s, hs⟩ : ∃ s, comps.find? (fun c => decide (c.name = e.from_)) = some s := by
    rw [List.mem_map] at hfrom
    obtain ⟨c, hc, hcn⟩ := hfrom
    have : (comps.find? fun c => decide (c.name = e.from_)).isSome := by
      rw [List.find?_isSome]
      exact ⟨c, hc, by simp [hcn]⟩
    exact Option.isSome_iff_exists.mp this
  obtain ⟨t0, ht0⟩ : ∃ t0, comps.find? (fun c => decide (c.name = e.to_)) = some t0 := by
    rw [List.mem_map] at hto
    obtain ⟨c, hc, hcn⟩ := hto
    have : (comps.find? fun c => decide (c.name = e.to_)).isSome := by
      rw [List.find?_isSome]
      exact ⟨c, hc, by simp [hcn]⟩
    exact Option.isSome_iff_exists.mp this
  obtain ⟨sy, hsy⟩ : ∃ sy, s.y = some sy :=
    Option.isSome_iff_exists.mp (hy s (List.mem_of_find?_eq_some hs))
  have hstep : evoStep comps e =
      updateFirst (fun c => decide (c.name = e.to_))
        (fun c => { c with y := some sy }) comps := by
    unfold evoStep
    split
    · rename_i heq
      rw [heq] at hs
      cases hs
    · rename_i s1 heq
      split
      · rename_i heq2
        rw [heq2] at ht0
        cases ht0
      · rename_i t1 heq2
        split
        · rename_i hynone
          have hse : s1 = s := by
            rw [heq] at hs
            exact Option.some.inj hs
          rw [hse, hsy] at hynone
          cases hynone
        · rename_i sy1 hy1
          have hse : s1 = s := by
            rw [heq] at hs
            exact Option.some.inj hs
          have hsys : sy1 = sy := by
            rw [hse, hsy] at hy1
            exact (Option.some.inj hy1).symm
          rw [hsys]
  refine ⟨sy, ?_, ?_⟩
  · rw [hstep]
    unfold findYc
    rw [find?_updateFirst_same (fun c => decide (c.name = e.to_))
      (fun c => { c with y := some sy }) (fun a => rfl) comps, ht0]
    rfl
  · by_cases hft : e.from_ = e.to_
    · rw [hstep]
      unfold findYc
      rw [hft, find?_updateFirst_same (fun c => decide (c.name = e.to_))
        (fun c => { c with y := some sy }) (fun a => rfl) comps, ht0]
      rfl
    · rw [hstep]
      unfold findYc
      rw [find?_updateFirst_ne e.to_ e.from_ hft
        (fun c => { c with y := some sy }) (fun c => rfl) comps, hs]
      exact hsy

theorem findYc_evoStep_of_ne (comps : List Component) (e : Evolution) (x : String)
    (h : e.to_ ≠ x) : findYc (evoStep comps e) x = findYc comps x := by
  unfold evoStep
  split
  · rfl
  · split
    · rfl
    · split
      · rfl
      · rename_i sy1 hsy1
        unfold findYc
        rw [find?_updateFirst_ne e.to_ x (fun hh => h hh.symm)
          (fun c => { c with y := some sy1 }) (fun c => rfl) comps]

theorem findYc_applyEvolutions_of_ne :
    ∀ (evos : List Evolution) (comps : List Component) (x : String),
      (∀ e ∈ evos, e.to_ ≠ x) →
      findYc (applyEvolutions evos comps) x = findYc comps x := by
  intro evos
  induction evos with
  | nil => intro comps x _; rfl
  | cons e rest ih =>
    intro comps x h
    calc findYc (applyEvolutions (e :: rest) comps) x
        = findYc (applyEvolutions rest (evoStep comps e)) x := rfl
      _ = findYc (evoStep comps e) x := ih _ x fun e' he' => h e' (List.mem_cons_of_mem e he')
      _ = findYc comps x := findYc_evoStep_of_ne comps e x (h e (List.mem_cons_self e rest))

theorem applyEvolutions_split (evos : List Evolution) (i : Nat) (hi : i < evos.length)
    (comps : List Component) :
    applyEvolutions evos comps =
      applyEvolutions (evos.drop (i+1))
        (evoStep (applyEvolutions (evos.take i) comps) (evos.get ⟨i, hi⟩)) := by
  conv_lhs => rw [← List.take_append_drop i evos]
  unfold applyEvolutions
  rw [List.foldl_append, List.drop_eq_getElem_cons hi]
  rfl

theorem layered_base (m : WardleyMap) :
    ∀ c ∈ layered m, c.x.isSome = true ∧ c.y.isSome = true := by
  intro c hc
  simp only [layered, stagePositioned, List.map_map, List.mem_map] at hc
  obtain ⟨c0, -, hc0⟩ := hc
  rw [← hc0]
  exact ⟨rfl, rfl⟩

theorem names_layered (m : WardleyMap) :
    (layered m).map (fun c => c.name) = m.components.map fun c => c.name := by
  simp only [layered, stagePositioned, List.map_map]
  rfl

theorem layered_anchor (m : WardleyMap) :
    ∀ c ∈ layered m, c.isAnchor = true → c.y = some 0 := by
  intro c hc hanch
  simp only [layered, stagePositioned, List.map_map, List.mem_map] at hc
  obtain ⟨c0, -, hc0⟩ := hc
  subst hc0
  simp only [Function.comp_apply] at hanch ⊢
  rw [hanch]
  simp

/-- C4 amended: every anchor that is not the target of an evolution edge ends
at y = 0, whatever its topological layer. -/
theorem C4_amended (m : WardleyMap) :
    ∀ c ∈ (calculatePositions m).components, c.isAnchor = true →
      (∀ e ∈ m.evolutions, e.to_ ≠ c.name) → c.y = some 0 := by
  intro c hc hanchor hne
  have hc' : c ∈ spreadGo (applyEvolutions m.evolutions (layered m)) []
      (applyEvolutions m.evolutions (layered m)) := hc
  obtain ⟨c3, hc3, hname, hstage, hanch, hy, -⟩ :=
    spreadGo_mem (applyEvolutions m.evolutions (layered m)) []
      (applyEvolutions m.evolutions (layered m)) c hc'
  have hne3 : ∀ e ∈ m.evolutions, e.to_ ≠ c3.name := by
    intro e he
    rw [← hname]
    exact hne e he
  have hmem3 : c3 ∈ layered m :=
    applyEvolutions_mem_of_ne m.evolutions (layered m) c3 hc3 hne3
  have h0 : c3.y = some 0 := layered_anchor m c3 hmem3 (hanch ▸ hanchor)
  rw [hy, h0]

theorem C4_amended_witness :
    ((({ name := "A", stage := .genesis, isAnchor := true,
         x := some (1/8), y := some 0 } : Component) ∈
      (calculatePositions
        { title := none,
          components := [{ name := "A", stage := .genesis, isAnchor := true,
                           x := none, y := none }],
          dependencies := [], evolutions := [], annotations := [],
          notes := [] }).components) ∧
      (∀ e ∈ ([] : List Evolution), e.to_ ≠ "A")) ∧
    ({ name := "A", stage := .genesis, isAnchor := true,
       x := some (1/8), y := some 0 } : Component).y = some 0 := by
  have hcomps : (calculatePositions
      { title := none,
        components := [{ name := "A", stage := .genesis, isAnchor := true,
                         x := none, y := none }],
        dependencies := [], evolutions := [], annotations := [],
        notes := [] }).components =
      [({ name := "A", stage := .genesis, isAnchor := true,
          x := some (1/8), y := some 0 } : Component)] := by
    with_unfolding_all rfl
  have hmem : ({ name := "A", stage := .genesis, isAnchor := true,
                 x := some (1/8), y := some 0 } : Component) ∈
      (calculatePositions
        { title := none,
          components := [{ name := "A", stage := .genesis, isAnchor := true,
                           x := none, y := none }],
          dependencies := [], evolutions := [], annotations := [],
          notes := [] }).components := by
    rw [hcomps]
    exact List.mem_singleton_self _
  refine ⟨⟨hmem, fun e he => absurd he (List.not_mem_nil e)⟩, ?_⟩
  exact C4_amended _ _ hmem rfl (fun e he => absurd he (List.not_mem_nil e))

/-- C5 amended: for the evolution edge at position i with both endpoints
declared, the final y of the target equals the final y of the source,
provided no later-listed evolution edge targets either endpoint (so chains
declared in source order align fully; the counterexample shows a reversed
chain does not). -/
theorem C5_amended (m : WardleyMap) (i : Nat) (hi : i < m.evolutions.length)
    (hfrom : (m.evolutions.get ⟨i, hi⟩).from_ ∈ m.components.map fun c => c.name)
    (hto : (m.evolutions.get ⟨i, hi⟩).to_ ∈ m.components.map fun c => c.name)
    (hlater : ∀ e ∈ m.evolutions.drop (i + 1),
      e.to_ ≠ (m.evolutions.get ⟨i, hi⟩).from_ ∧
      e.to_ ≠ (m.evolutions.get ⟨i, hi⟩).to_) :
    ∃ q : ℚ, findY (calculatePositions m) (m.evolutions.get ⟨i, hi⟩).to_ = some q ∧
      findY (calculatePositions m) (m.evolutions.get ⟨i, hi⟩).from_ = some q := by
  set e := m.evolutions.get ⟨i, hi⟩ with he
  set mid := applyEvolutions (m.evolutions.take i) (layered m) with hmid
  have hnames_mid : mid.map (fun c => c.name) = m.components.map fun c => c.name := by
    rw [hmid, names_applyEvolutions, names_layered]
  have hy_mid : ∀ c ∈ mid, c.y.isSome = true := by
    rw [hmid]
    exact applyEvolutions_pred (fun c => c.y.isSome = true) (fun c q h => rfl)
      (m.evolutions.take i) (layered m) (fun c hc => (layered_base m c hc).2)
  obtain ⟨q, hq_to, hq_from⟩ := evoStep_aligns mid e
    (by rw [hnames_mid]; exact hfrom)
    (by rw [hnames_mid]; exact hto) hy_mid
  have hsplit : applyEvolutions m.evolutions (layered m) =
      applyEvolutions (m.evolutions.drop (i+1)) (evoStep mid e) := by
    rw [hmid, he]
    exact applyEvolutions_split m.evolutions i hi (layered m)
  have hfinal : ∀ x : String, findY (calculatePositions m) x =
      findYc (applyEvolutions (m.evolutions.drop (i+1)) (evoStep mid e)) x := by
    intro x
    calc findY (calculatePositions m) x
        = findYc (spreadGo (applyEvolutions m.evolutions (layered m)) []
            (applyEvolutions m.evolutions (layered m))) x := rfl
      _ = findYc (applyEvolutions m.evolutions (layered m)) x :=
          findYc_spreadGo _ x _ []
      _ = findYc (applyEvolutions (m.evolutions.drop (i+1)) (evoStep mid e)) x := by
          rw [hsplit]
  refine ⟨q, ?_, ?_⟩
  · rw [hfinal e.to_,
      findYc_applyEvolutions_of_ne _ _ _ fun e' he' => (hlater e' he').2]
    exact hq_to
  · rw [hfinal e.from_,
      findYc_applyEvolutions_of_ne _ _ _ fun e' he' => (hlater e' he').1]
    exact hq_from

theorem C5_amended_witness :
    ((0 < ({ title := none,
             components := [{ name := "A", stage := .product, isAnchor := false,
                              x := none, y := none },
                            { name := "B", stage := .custom, isAnchor := false,
                              x := none, y := none }],
             dependencies := [], evolutions := [{ from_ := "A", to_ := "B", stage := "product" }],
             annotations := [], notes := [] } : WardleyMap).evolutions.length) ∧
      ("A" ∈ ([{ name := "A", stage := .product, isAnchor := false, x := none, y := none },
               { name := "B", stage := .custom, isAnchor := false, x := none, y := none }] :
          List Component).map fun c => c.name) ∧
      ("B" ∈ ([{ name := "A", stage := .product, isAnchor := false, x := none, y := none },
               { name := "B", stage := .custom, isAnchor := false, x := none, y := none }] :
          List Component).map fun c => c.name)) ∧
    (∃ q : ℚ, findY (calculatePositions
        { title := none,
          components := [{ name := "A", stage := .product, isAnchor := false,
                           x := none, y := none },
                         { name := "B", stage := .custom, isAnchor := false,
                           x := none, y := none }],
          dependencies := [], evolutions := [{ from_ := "A", to_ := "B", stage := "product" }],
          annotations := [], notes := [] }) "B" = some q ∧
      findY (calculatePositions
        { title := none,
          components := [{ name := "A", stage := .product, isAnchor := false,
                           x := none, y := none },
                         { name := "B", stage := .custom, isAnchor := false,
                           x := none, y := none }],
          dependencies := [], evolutions := [{ from_ := "A", to_ := "B", stage := "product" }],
          annotations := [], notes := [] }) "A" = some q) := by
  refine ⟨⟨by decide, by decide, by decide⟩, ?_⟩
  exact C5_amended
    { title := none,
      components := [{ name := "A", stage := .product, isAnchor := false,
                       x := none, y := none },
                     { name := "B", stage := .custom, isAnchor := false,
                       x := none, y := none }],
      dependencies := [], evolutions := [{ from_ := "A", to_ := "B", stage := "product" }],
      annotations := [], notes := [] }
    0 (by decide) (by decide) (by decide)
    (fun e he => absurd he (List.not_mem_nil e))

/-- C6: layout is total — on every graph, cyclic dependencies included,
every component ends with a defined numeric x and y (a node the queue never
reaches is read back through `layers.get(name) ?? 0`, i.e. falls back to
layer 0), and the loop terminates: its result is unchanged by any additional
fuel beyond the measure bound that `topologicalSort` passes. -/
theorem C6_layout_total :
    (∀ (m : WardleyMap), ∀ c ∈ (calculatePositions m).components,
      c.x.isSome = true ∧ c.y.isSome = true) ∧
    (∀ (comps : List Component) (deps : List Dependency) (extra : Nat),
      topoLoop (topoInit comps deps).1
        (topoMeasure (topoInit comps deps).2 + extra) (topoInit comps deps).2 =
        topologicalSort comps deps) := by
  constructor
  · intro m c hc
    have hc' : c ∈ spreadGo (applyEvolutions m.evolutions (layered m)) []
        (applyEvolutions m.evolutions (layered m)) := hc
    obtain ⟨c3, hc3, -, -, -, hy, hx⟩ :=
      spreadGo_mem (applyEvolutions m.evolutions (layered m)) []
        (applyEvolutions m.evolutions (layered m)) c hc'
    have h3 := applyEvolutions_pred (fun c => c.x.isSome = true ∧ c.y.isSome = true)
      (fun c q hcq => ⟨hcq.1, rfl⟩) m.evolutions (layered m) (layered_base m) c3 hc3
    exact ⟨hx h3.1, by rw [hy]; exact h3.2⟩
  · intro comps deps extra
    exact topoLoop_fuel (topoInit comps deps).1 _ _ (topoInit comps deps).2
      (by omega) (le_refl _)

theorem C6_layout_total_witness :
    (({ name := "A", stage := .genesis, isAnchor := false,
        x := some (1/8), y := some 0 } : Component) ∈
      (calculatePositions
        { title := none,
          components := [{ name := "A", stage := .genesis, isAnchor := false,
                           x := none, y := none }],
          dependencies := [], evolutions := [], annotations := [],
          notes := [] }).components) ∧
    (({ name := "A", stage := .genesis, isAnchor := false,
        x := some (1/8), y := some 0 } : Component).x.isSome = true ∧
     ({ name := "A", stage := .genesis, isAnchor := false,
        x := some (1/8), y := some 0 } : Component).y.isSome = true) := by
  have hcomps : (calculatePositions
      { title := none,
        components := [{ name := "A", stage := .genesis, isAnchor := false,
                         x := none, y := none }],
        dependencies := [], evolutions := [], annotations := [],
        notes := [] }).components =
      [({ name := "A", stage := .genesis, isAnchor := false,
          x := some (1/8), y := some 0 } : Component)] := by
    with_unfolding_all rfl
  have hmem : ({ name := "A", stage := .genesis, isAnchor := false,
                 x := some (1/8), y := some 0 } : Component) ∈
      (calculatePositions
        { title := none,
          components := [{ name := "A", stage := .genesis, isAnchor := false,
                           x := none, y := none }],
          dependencies := [], evolutions := [], annotations := [],
          notes := [] }).components := by
    rw [hcomps]
    exact List.mem_singleton_self _
  exact ⟨hmem, C6_layout_total.1 _ _ hmem⟩

theorem rmatch_lit_some {p : List Char} {ps : List RTok} {s : List Char}
    {gs : List (List Char)} (h : rmatch (.lit p :: ps) s = some gs) :
    p.isPrefixOf s = true := by
  by_cases hp : p.isPrefixOf s
  · exact hp
  · exfalso
    have : rmatch (.lit p :: ps) s = none := by
      simp only [rmatch]
      rw [if_neg hp]
    rw [this] at h
    cases h

theorem rmatch_lit_none {p : List Char} (ps : List RTok) (s : List Char)
    (h : p.isPrefixOf s = false) : rmatch (.lit p :: ps) s = none := by
  simp only [rmatch]
  rw [if_neg (by simp [h])]

/-- C10: reference validation is asymmetric — an `evolve a -> b [s]` line
errors at the line itself when `a` has not been declared on an earlier line;
a dependency-chain line never contributes a line error (the chain only
appends edges); and the dependency post-pass is silent whenever every
endpoint is somewhere in the final name table, so dependencies may reference
components declared later in the text. -/
theorem C10_validation_asymmetry :
    (∀ (st : ParseState) (line : List Char) (n : Nat) (gs : List (List Char)),
      rmatch evolveArrowPat line = some gs →
      alGet st.componentMap (strOf (jsTrim (gs.getD 0 []))) = none →
      (processTrimmedLine st line n).errors =
        st.errors ++ [{ line := n, msg := .notDeclared (strOf (jsTrim (gs.getD 0 []))) }]) ∧
    (∀ (st : ParseState) (line : List Char) (n : Nat),
      line ≠ [] → ¬("#".toList.isPrefixOf line = true) →
      ¬("title ".toList.isPrefixOf line = true) →
      rmatch componentPat line = none → rmatch anchorPat line = none →
      rmatch evolveArrowPat line = none → rmatch evolveStagePat line = none →
      containsArrow line = true →
      (processTrimmedLine st line n).errors = st.errors ∧
      (processTrimmedLine st line n).map.dependencies =
        st.map.dependencies ++ parseDependencyChain line) ∧
    (∀ (cmap : List (String × Component)) (deps : List Dependency),
      (∀ d ∈ deps, (alGet cmap d.from_).isSome = true ∧ (alGet cmap d.to_).isSome = true) →
      validationErrors cmap deps = []) := by
  refine ⟨?_, ?_, ?_⟩
  · intro st line n gs hm hlook
    have hm' : rmatch (.lit "evolve".toList :: evolveArrowPat.tail) line = some gs := hm
    have hpre := rmatch_lit_some hm'
    obtain ⟨c, rest, hline⟩ : ∃ c rest, line = c :: rest := by
      cases line with
      | nil => exact absurd hpre (by decide)
      | cons c rest => exact ⟨c, rest, rfl⟩
    subst hline
    have hc : c = 'e' := by
      have h2 : (('e' == c) && "volve".toList.isPrefixOf rest) = true := hpre
      have := (Bool.and_eq_true _ _).mp h2
      exact (beq_iff_eq.mp this.1).symm
    subst hc
    have c4 : rmatch componentPat ('e' :: rest) = none :=
      rmatch_lit_none _ _ rfl
    have c5 : rmatch anchorPat ('e' :: rest) = none :=
      rmatch_lit_none _ _ rfl
    rw [processTrimmedLine]
    rw [if_neg (by simp : ¬(('e' :: rest : List Char) = []))]
    have hh2 : "#".toList.isPrefixOf ('e' :: rest) = false := rfl
    have hh3 : "title ".toList.isPrefixOf ('e' :: rest) = false := rfl
    rw [if_neg (by rw [hh2]; exact Bool.false_ne_true)]
    rw [if_neg (by rw [hh3]; exact Bool.false_ne_true)]
    split
    · rename_i gs1 heq
      rw [c4] at heq
      cases heq
    · split
      · rename_i gs1 heq
        rw [c5] at heq
        cases heq
      · split
        · rename_i gs1 heq
          have hgs : gs = gs1 := by
            rw [hm] at heq
            exact Option.some.inj heq
          subst hgs
          rw [if_pos (by rw [hlook]; rfl)]
          rfl
        · rename_i heq
          rw [hm] at heq
          cases heq
  · intro st line n hnil hsharp htitle hcp hap heap hesp harr
    rw [processTrimmedLine]
    rw [if_neg hnil, if_neg hsharp, if_neg htitle]
    constructor
    · split
      · rename_i gs1 heq
        rw [hcp] at heq
        cases heq
      · split
        · rename_i gs1 heq
          rw [hap] at heq
          cases heq
        · split
          · rename_i gs1 heq
            rw [heap] at heq
            cases heq
          · split
            · rename_i gs1 heq
              rw [hesp] at heq
              cases heq
            · rw [if_pos harr]
    · split
      · rename_i gs1 heq
        rw [hcp] at heq
        cases heq
      · split
        · rename_i gs1 heq
          rw [hap] at heq
          cases heq
        · split
          · rename_i gs1 heq
            rw [heap] at heq
            cases heq
          · split
            · rename_i gs1 heq
              rw [hesp] at heq
              cases heq
            · rw [if_pos harr]
  · intro cmap deps h
    induction deps with
    | nil => rfl
    | cons d rest ih =>
      have hd := h d (List.mem_cons_self d rest)
      obtain ⟨v1, hv1⟩ := Option.isSome_iff_exists.mp hd.1
      obtain ⟨v2, hv2⟩ := Option.isSome_iff_exists.mp hd.2
      rw [validationErrors, hv1, hv2]
      simp only [Option.isNone_some, Bool.false_eq_true, if_false,
        List.nil_append, List.append_nil]
      exact ih fun d' hd' => h d' (List.mem_cons_of_mem d hd')

theorem C10_validation_asymmetry_witness :
    ((rmatch evolveArrowPat ("evolve A -> B [genesis]".toList) =
        some ["A".toList, "B".toList, "genesis".toList] ∧
      alGet initState.componentMap "A" = none) ∧
      (processTrimmedLine initState ("evolve A -> B [genesis]".toList) 1).errors =
        initState.errors ++ [{ line := 1, msg := .notDeclared "A" }]) ∧
    ((containsArrow ("A -> B".toList) = true) ∧
      (processTrimmedLine initState ("A -> B".toList) 1).errors = initState.errors) ∧
    ((∀ d ∈ [({ from_ := "A", to_ := "B", label := none } : Dependency)],
        (alGet [("A", ({ name := "A", stage := .genesis, isAnchor := false,
                         x := none, y := none } : Component)),
                ("B", ({ name := "B", stage := .product, isAnchor := false,
                         x := none, y := none } : Component))] d.from_).isSome = true ∧
        (alGet [("A", ({ name := "A", stage := .genesis, isAnchor := false,
                         x := none, y := none } : Component)),
                ("B", ({ name := "B", stage := .product, isAnchor := false,
                         x := none, y := none } : Component))] d.to_).isSome = true) ∧
      validationErrors
        [("A", ({ name := "A", stage := .genesis, isAnchor := false,
                  x := none, y := none } : Component)),
         ("B", ({ name := "B", stage := .product, isAnchor := false,
                  x := none, y := none } : Component))]
        [({ from_ := "A", to_ := "B", label := none } : Dependency)] = []) := by
  refine ⟨⟨⟨by decide, by decide⟩, ?_⟩, ⟨by decide, ?_⟩, ⟨by decide, ?_⟩⟩
  · exact C10_validation_asymmetry.1 initState ("evolve A -> B [genesis]".toList) 1
      ["A".toList, "B".toList, "genesis".toList] (by decide) (by decide)
  · exact (C10_validation_asymmetry.2.1 initState ("A -> B".toList) 1
      (by decide) (by decide) (by decide) (by decide) (by decide) (by decide)
      (by decide) (by decide)).1
  · exact C10_validation_asymmetry.2.2 _ _ (by decide)

theorem countP_and_le {α : Type} (p q : α → Bool) (l : List α) :
    l.countP (fun a => p a && q a) ≤ l.countP p := by
  induction l with
  | nil => simp
  | cons a rest ih =>
    rw [List.countP_cons, List.countP_cons]
    by_cases hp : p a
    · by_cases hq : q a <;> simp [hp, hq] <;> omega
    · simp [hp]
      omega

theorem exists_of_countP_lt {α : Type} (p q : α → Bool) (l : List α)
    (h : l.countP (fun a => p a && q a) < l.countP p) :
    ∃ a ∈ l, p a = true ∧ q a = false := by
  induction l with
  | nil => simp at h
  | cons a rest ih =>
    rw [List.countP_cons, List.countP_cons] at h
    by_cases hp : p a
    · by_cases hq : q a
      · simp [hp, hq] at h
        obtain ⟨x, hx, hpx, hqx⟩ := ih (by omega)
        exact ⟨x, List.mem_cons_of_mem a hx, hpx, hqx⟩
      · exact ⟨a, List.mem_cons_self a rest, hp, by simp [hq]⟩
    · simp [hp] at h
      obtain ⟨x, hx, hpx, hqx⟩ := ih (by omega)
      exact ⟨x, List.mem_cons_of_mem a hx, hpx, hqx⟩

theorem all_of_countP_eq {α : Type} (p q : α → Bool) (l : List α)
    (h : l.countP (fun a => p a && q a) = l.countP p) :
    ∀ a ∈ l, p a = true → q a = true := by
  intro a ha hpa
  by_contra hqa
  have hlt : l.countP (fun a => p a && q a) < l.countP p := by
    clear h
    induction l with
    | nil => cases ha
    | cons b rest ih =>
      rw [List.countP_cons, List.countP_cons]
      rcases List.mem_cons.mp ha with hb | hb
      · subst hb
        have := countP_and_le p q rest
        simp [hpa, Bool.of_not_eq_true hqa]
        omega
      · have := ih hb
        by_cases hpb : p b
        · by_cases hqb : q b <;> simp [hpb, hqb] <;> omega
        · simp [hpb]
          omega
  omega

theorem countP_or_split {α : Type} (p q1 q2 : α → Bool) (l : List α)
    (hdis : ∀ a ∈ l, ¬(q1 a = true ∧ q2 a = true)) :
    l.countP (fun a => p a && (q1 a || q2 a)) =
      l.countP (fun a => p a && q1 a) + l.countP (fun a => p a && q2 a) := by
  induction l with
  | nil => simp
  | cons a rest ih =>
    have ih' := ih fun a ha => hdis a (List.mem_cons_of_mem _ ha)
    have hda := hdis a (List.mem_cons_self a rest)
    rw [List.countP_cons, List.countP_cons, List.countP_cons]
    by_cases hp : p a
    · by_cases h1 : q1 a
      · have h2 : q2 a = false := by
          by_contra h2'
          exact hda ⟨h1, Bool.of_not_eq_false h2'⟩
        simp [hp, h1, h2]
        omega
      · by_cases h2 : q2 a <;>
          simp [hp, Bool.of_not_eq_true h1, h2] <;> omega
    · simp [hp]
      omega

theorem countP_filter_eq {α : Type} (p q : α → Bool) (l : List α) :
    (l.filter q).countP p = l.countP fun a => p a && q a := by
  induction l with
  | nil => rfl
  | cons a rest ih =>
    by_cases hq : q a
    · rw [List.filter_cons_of_pos hq, List.countP_cons, List.countP_cons, ih]
      simp [hq]
    · rw [List.filter_cons_of_neg hq, List.countP_cons, ih]
      simp [hq]

theorem alGet_foldl_init {α : Type} (v : α) :
    ∀ (comps : List Component) (m : List (String × α)) (x : String),
      alGet (comps.foldl (fun m c => alSet m c.name v) m) x =
        if x ∈ comps.map (fun c => c.name) then some v else alGet m x := by
  intro comps
  induction comps with
  | nil => intro m x; simp
  | cons c rest ih =>
    intro m x
    rw [List.foldl_cons, ih]
    by_cases hr : x ∈ rest.map fun c => c.name
    · have hmem : x ∈ (c :: rest).map fun c => c.name := by simp [hr]
      rw [if_pos hr, if_pos hmem]
    · rw [if_neg hr]
      by_cases hc : c.name = x
      · subst hc
        have hmem : c.name ∈ (c :: rest).map fun c => c.name := by simp
        rw [if_pos hmem, alGet_alSet_self]
      · have hxc : ¬ x = c.name := fun hh => hc hh.symm
        have hmem : x ∉ (c :: rest).map fun c => c.name := by simp [hr, hxc]
        rw [if_neg hmem, alGet_alSet_ne m c.name x v hc]

theorem alGet_foldl_incr :
    ∀ (deps : List Dependency) (m : List (String × Int)) (x : String) (v : Int),
      alGet m x = some v →
      alGet (deps.foldl (fun m d => alSet m d.from_ (degOf m d.from_ + 1)) m) x =
        some (v + (deps.countP fun d => decide (d.from_ = x) : ℤ)) := by
  intro deps
  induction deps with
  | nil => intro m x v h; simpa using h
  | cons d rest ih =>
    intro m x v h
    rw [List.foldl_cons, List.countP_cons]
    by_cases hd : d.from_ = x
    · subst hd
      have hset : alGet (alSet m d.from_ (degOf m d.from_ + 1)) d.from_ =
          some (v + 1) := by
        rw [alGet_alSet_self]
        unfold degOf
        rw [h]
        rfl
      rw [ih _ _ _ hset]
      simp
      ring
    · have hset : alGet (alSet m d.from_ (degOf m d.from_ + 1)) x = some v := by
        rw [alGet_alSet_ne m d.from_ x _ hd]
        exact h
      rw [ih _ _ _ hset]
      simp [hd]

theorem alGet_foldl_graph :
    ∀ (deps : List Dependency) (g : List (String × List String)) (c : String)
      (l : List String), alGet g c = some l →
      alGet (deps.foldl (fun g d =>
        match alGet g d.to_ with
        | some l0 => alSet g d.to_ (l0 ++ [d.from_])
        | none => g) g) c =
        some (l ++ (deps.filter fun d => decide (d.to_ = c)).map fun d => d.from_) := by
  intro deps
  induction deps with
  | nil => intro g c l h; simpa using h
  | cons d rest ih =>
    intro g c l h
    rw [List.foldl_cons]
    by_cases hd : d.to_ = c
    · subst hd
      rw [List.filter_cons_of_pos (by simp)]
      have hstep : (match alGet g d.to_ with
          | some l0 => alSet g d.to_ (l0 ++ [d.from_])
          | none => g) = alSet g d.to_ (l ++ [d.from_]) := by
        rw [h]
      rw [hstep, ih _ _ _ (alGet_alSet_self g d.to_ (l ++ [d.from_]))]
      simp
    · rw [List.filter_cons_of_neg (by simp [hd])]
      have hstep : alGet (match alGet g d.to_ with
          | some l0 => alSet g d.to_ (l0 ++ [d.from_])
          | none => g) c = some l := by
        rcases hg : alGet g d.to_ with _ | l0
        · exact h
        · rw [alGet_alSet_ne g d.to_ c _ hd]
          exact h
      rw [ih _ _ _ hstep]

theorem seeds_fst (inDeg : List (String × Int)) :
    ∀ (comps : List Component) (acc : List String × List (String × Nat)),
      (comps.foldl (fun acc c => if alGet inDeg c.name = some 0 then
        (acc.1 ++ [c.name], alSet acc.2 c.name 0) else acc) acc).1 =
        acc.1 ++ (comps.filter fun c =>
          decide (alGet inDeg c.name = some 0)).map fun c => c.name := by
  intro comps
  induction comps with
  | nil => intro acc; simp
  | cons c rest ih =>
    intro acc
    rw [List.foldl_cons]
    by_cases hc : alGet inDeg c.name = some 0
    · rw [if_pos hc, ih, List.filter_cons_of_pos (by simp [hc])]
      simp
    · rw [if_neg hc, ih, List.filter_cons_of_neg (by simp [hc])]

theorem topoInit_deg (comps : List Component) (deps : List Dependency) (x : String)
    (hx : x ∈ comps.map fun c => c.name) :
    alGet (topoInit comps deps).2.inDegree x = some (depOutCount deps x : ℤ) := by
  show alGet (deps.foldl (fun m d => alSet m d.from_ (degOf m d.from_ + 1))
      (comps.foldl (fun m c => alSet m c.name (0 : Int)) [])) x = _
  have h0 : alGet (comps.foldl (fun m c => alSet m c.name (0 : Int)) []) x = some 0 := by
    rw [alGet_foldl_init, if_pos hx]
  rw [alGet_foldl_incr _ _ _ _ h0]
  unfold depOutCount
  norm_num

theorem topoInit_graph (comps : List Component) (deps : List Dependency) (c : String)
    (hc : c ∈ comps.map fun c => c.name) :
    alGet (topoInit comps deps).1 c =
      some ((deps.filter fun d => decide (d.to_ = c)).map fun d => d.from_) := by
  show alGet (deps.foldl (fun g d =>
      match alGet g d.to_ with
      | some l0 => alSet g d.to_ (l0 ++ [d.from_])
      | none => g)
      (comps.foldl (fun m c => alSet m c.name ([] : List String)) [])) c = _
  have h0 : alGet (comps.foldl (fun m c => alSet m c.name ([] : List String)) []) c =
      some [] := by
    rw [alGet_foldl_init, if_pos hc]
  rw [alGet_foldl_graph _ _ _ _ h0]
  simp

theorem topoInit_queue (comps : List Component) (deps : List Dependency) :
    (topoInit comps deps).2.queue =
      (comps.filter fun c =>
        decide (alGet (topoInit comps deps).2.inDegree c.name = some 0)).map
        fun c => c.name := by
  show (comps.foldl (fun acc c =>
      if alGet (topoInit comps deps).2.inDegree c.name = some 0 then
        (acc.1 ++ [c.name], alSet acc.2 c.name 0) else acc)
      (([] : List String), ([] : List (String × Nat)))).1 = _
  rw [seeds_fst]
  simp

theorem topoInv_init (comps : List Component) (deps : List Dependency)
    (hnodup : (comps.map fun c => c.name).Nodup)
    (_hval : ∀ d ∈ deps, d.from_ ∈ comps.map (fun c => c.name) ∧
      d.to_ ∈ comps.map fun c => c.name) :
    TopoInv comps deps [] (topoInit comps deps).2 := by
  have hq := topoInit_queue comps deps
  refine ⟨?_, ?_, ?_, ?_, ?_, ?_, ?_, ?_⟩
  · intro x hx; cases hx
  · intro x hx
    rw [hq, List.mem_map] at hx
    obtain ⟨c, hc, hcx⟩ := hx
    exact hcx ▸ List.mem_map_of_mem _ (List.mem_of_mem_filter hc)
  · intro x hx
    rw [hq, List.mem_map] at hx
    obtain ⟨c, hc, hcx⟩ := hx
    have := List.of_mem_filter hc
    rw [← hcx]
    simpa using this
  · rw [List.append_nil, hq]
    have hsub : ((comps.filter fun c =>
        decide (alGet (topoInit comps deps).2.inDegree c.name = some 0)).map
          fun c => c.name).Sublist (comps.map fun c => c.name) :=
      List.Sublist.map _ (List.filter_sublist _)
    exact List.Nodup.sublist hsub hnodup
  · intro x hx
    rw [topoInit_deg comps deps x hx]
    have hz : processedCount deps [] x = 0 := by
      unfold processedCount
      simp
    rw [hz]
    norm_num
  · intro x hx hdeg hnp
    rw [hq]
    rw [List.mem_map] at hx ⊢
    obtain ⟨c, hc, hcx⟩ := hx
    refine ⟨c, List.mem_filter_of_mem hc ?_, hcx⟩
    simp [hcx, hdeg]
  · intro t ht; cases ht
  · intro t ht; cases ht

theorem layerOf_alSet_self (m : List (String × Nat)) (k : String) (v : Nat) :
    layerOf (alSet m k v) k = v := by
  unfold layerOf
  rw [alGet_alSet_self]
  rfl

theorem layerOf_alSet_ne (m : List (String × Nat)) (k x : String) (v : Nat)
    (h : k ≠ x) : layerOf (alSet m k v) x = layerOf m x := by
  unfold layerOf
  rw [alGet_alSet_ne _ _ _ _ h]

theorem nodup_insert_mid {α : Type} (q p : List α) (x : α) (h : (q ++ p).Nodup)
    (hq : x ∉ q) (hp : x ∉ p) : ((q ++ [x]) ++ p).Nodup := by
  have hperm : (x :: (q ++ p)).Perm ((q ++ [x]) ++ p) := by
    have h1 : (q ++ [x]) ++ p = q ++ (x :: p) := by simp
    rw [h1]
    exact List.perm_middle.symm
  exact hperm.nodup (by
    rw [List.nodup_cons]
    exact ⟨by simp [hq, hp], h⟩)

theorem topoStepNeighbor_inDegree (cl : Nat) (st : TopoState) (nb : String) :
    (topoStepNeighbor cl st nb).inDegree =
      alSet st.inDegree nb (degOf st.inDegree nb - 1) := rfl

theorem topoStepNeighbor_layers (cl : Nat) (st : TopoState) (nb : String) :
    (topoStepNeighbor cl st nb).layers =
      alSet st.layers nb (max (layerOf st.layers nb) (cl + 1)) := rfl

theorem topoStepNeighbor_queue_pos (cl : Nat) (st : TopoState) (nb : String)
    (h : degOf st.inDegree nb - 1 = 0) :
    (topoStepNeighbor cl st nb).queue = st.queue ++ [nb] := by
  show (if degOf st.inDegree nb - 1 = 0 then st.queue ++ [nb] else st.queue) = _
  rw [if_pos h]

theorem topoStepNeighbor_queue_neg (cl : Nat) (st : TopoState) (nb : String)
    (h : ¬(degOf st.inDegree nb - 1 = 0)) :
    (topoStepNeighbor cl st nb).queue = st.queue := by
  show (if degOf st.inDegree nb - 1 = 0 then st.queue ++ [nb] else st.queue) = _
  rw [if_neg h]

theorem foldInv_step (comps : List Component) (deps : List Dependency)
    (popped : List String) (current : String) (cl : Nat)
    (lay0 : List (String × Nat))
    (hval : ∀ d ∈ deps, d.from_ ∈ comps.map (fun c => c.name) ∧
      d.to_ ∈ comps.map fun c => c.name)
    (hpop_closed : ∀ t ∈ popped, ∀ d ∈ deps, d.from_ = t → d.to_ ∈ popped)
    (hcur_closed : ∀ d ∈ deps, d.from_ = current → d.to_ ∈ popped)
    (hcur_not_popped : current ∉ popped)
    (ds1 ds2 : List Dependency) (d0 : Dependency)
    (hsplit : deps.filter (fun d => decide (d.to_ = current)) = ds1 ++ d0 :: ds2)
    (st : TopoState) (hinv : FoldInv comps deps popped current cl lay0 ds1 st) :
    FoldInv comps deps popped current cl lay0 (ds1 ++ [d0])
      (topoStepNeighbor cl st d0.from_) := by
  have hd0f : d0 ∈ deps.filter fun d => decide (d.to_ = current) := by
    rw [hsplit]
    exact List.mem_append_right _ (List.mem_cons_self _ _)
  have hd0dep : d0 ∈ deps := List.mem_of_mem_filter hd0f
  have hd0to : d0.to_ = current := by simpa using List.of_mem_filter hd0f
  have hx0names : d0.from_ ∈ comps.map fun c => c.name := (hval d0 hd0dep).1
  -- the counting inequality giving positivity of the stored in-degree
  have hdisj : ∀ d ∈ deps,
      ¬(decide (d.to_ ∈ popped) = true ∧ decide (d.to_ = current) = true) := by
    intro d hd ⟨h1, h2⟩
    rw [decide_eq_true_eq] at h1 h2
    exact hcur_not_popped (h2 ▸ h1)
  have hsplit2 := countP_or_split (fun d => decide (d.from_ = d0.from_))
    (fun d => decide (d.to_ ∈ popped)) (fun d => decide (d.to_ = current)) deps hdisj
  have hle := countP_and_le (fun d => decide (d.from_ = d0.from_))
    (fun d => decide (d.to_ ∈ popped) || decide (d.to_ = current)) deps
  rw [hsplit2] at hle
  have hfc : (deps.filter fun d => decide (d.to_ = current)).countP
      (fun d => decide (d.from_ = d0.from_)) =
      deps.countP fun d => decide (d.from_ = d0.from_) && decide (d.to_ = current) :=
    countP_filter_eq _ _ deps
  have hfilter_count : (deps.filter fun d => decide (d.to_ = current)).countP
      (fun d => decide (d.from_ = d0.from_)) =
      ds1.countP (fun d => decide (d.from_ = d0.from_)) +
        ((d0 :: ds2).countP fun d => decide (d.from_ = d0.from_)) := by
    rw [hsplit, List.countP_append]
  have hhead : 1 ≤ (d0 :: ds2).countP fun d => decide (d.from_ = d0.from_) := by
    rw [List.countP_cons]
    simp
  have hq2 : deps.countP (fun d => decide (d.from_ = d0.from_) && decide (d.to_ = current)) =
      ds1.countP (fun d => decide (d.from_ = d0.from_)) +
        ((d0 :: ds2).countP fun d => decide (d.from_ = d0.from_)) := by
    rw [← hfc, hfilter_count]
  have hle2 : deps.countP (fun d => decide (d.from_ = d0.from_) && decide (d.to_ ∈ popped)) +
      deps.countP (fun d => decide (d.from_ = d0.from_) && decide (d.to_ = current)) ≤
      deps.countP (fun d => decide (d.from_ = d0.from_)) := hle
  have hcount : processedCount deps popped d0.from_ +
      ds1.countP (fun d => decide (d.from_ = d0.from_)) + 1 ≤
      depOutCount deps d0.from_ := by
    unfold processedCount depOutCount
    omega
  have hdeg0 := hinv.deg_eq d0.from_ hx0names
  have hx0_not_popped : d0.from_ ∉ popped := by
    intro hmem
    exact hcur_not_popped (hd0to ▸ hpop_closed d0.from_ hmem d0 hd0dep rfl)
  have hx0_ne_current : d0.from_ ≠ current := by
    intro heq
    exact hcur_not_popped (hd0to ▸ hcur_closed d0 hd0dep heq)
  have hx0_not_queue : d0.from_ ∉ st.queue := by
    intro hmem
    have h0 := hinv.queue_deg d0.from_ hmem
    rw [hdeg0] at h0
    have := Option.some.inj h0
    omega
  -- the explicit shape of the step
  have hdegOf : degOf st.inDegree d0.from_ =
      (depOutCount deps d0.from_ : ℤ) - (processedCount deps popped d0.from_ : ℤ) -
        (ds1.countP fun d => decide (d.from_ = d0.from_) : ℤ) := by
    unfold degOf
    rw [hdeg0]
    rfl
  have hpos : 1 ≤ degOf st.inDegree d0.from_ := by
    rw [hdegOf]
    omega
  constructor
  · -- deg_eq
    intro x hx
    show alGet (alSet st.inDegree d0.from_ (degOf st.inDegree d0.from_ - 1)) x = _
    by_cases hxx : d0.from_ = x
    · subst hxx
      rw [alGet_alSet_self, hdegOf]
      have : ((ds1 ++ [d0]).countP fun d => decide (d.from_ = d0.from_)) =
          (ds1.countP fun d => decide (d.from_ = d0.from_)) + 1 := by
        rw [List.countP_append, List.countP_cons]
        simp
      rw [this]
      congr 1
      push_cast
      ring
    · rw [alGet_alSet_ne _ _ _ _ hxx, hinv.deg_eq x hx]
      have : ((ds1 ++ [d0]).countP fun d => decide (d.from_ = x)) =
          ds1.countP fun d => decide (d.from_ = x) := by
        rw [List.countP_append, List.countP_cons]
        simp [hxx]
      rw [this]
  · -- queue_names
    intro x hx
    show x ∈ _
    by_cases hpush : degOf st.inDegree d0.from_ - 1 = 0
    · have hx' : x ∈ st.queue ++ [d0.from_] := by
        rw [topoStepNeighbor_queue_pos cl st d0.from_ hpush] at hx
        exact hx
      rcases List.mem_append.mp hx' with h | h
      · exact hinv.queue_names x h
      · rw [List.mem_singleton.mp h]
        exact hx0names
    · rw [topoStepNeighbor_queue_neg cl st d0.from_ hpush] at hx
      exact hinv.queue_names x hx
  · -- queue_deg
    intro x hx
    show alGet (alSet st.inDegree d0.from_ (degOf st.inDegree d0.from_ - 1)) x = some 0
    by_cases hpush : degOf st.inDegree d0.from_ - 1 = 0
    · have hx' : x ∈ st.queue ++ [d0.from_] := by
        rw [topoStepNeighbor_queue_pos cl st d0.from_ hpush] at hx
        exact hx
      rcases List.mem_append.mp hx' with h | h
      · have hne : d0.from_ ≠ x := fun heq => hx0_not_queue (heq ▸ h)
        rw [alGet_alSet_ne _ _ _ _ hne]
        exact hinv.queue_deg x h
      · rw [List.mem_singleton.mp h, alGet_alSet_self, hpush]
    · rw [topoStepNeighbor_queue_neg cl st d0.from_ hpush] at hx
      have hne : d0.from_ ≠ x := fun heq => hx0_not_queue (heq ▸ hx)
      rw [alGet_alSet_ne _ _ _ _ hne]
      exact hinv.queue_deg x hx
  · -- all_nodup
    by_cases hpush : degOf st.inDegree d0.from_ - 1 = 0
    · rw [topoStepNeighbor_queue_pos cl st d0.from_ hpush]
      refine nodup_insert_mid _ _ _ hinv.all_nodup hx0_not_queue ?_
      intro hmem
      rcases List.mem_append.mp hmem with h | h
      · exact hx0_not_popped h
      · exact hx0_ne_current (List.mem_singleton.mp h)
    · rw [topoStepNeighbor_queue_neg cl st d0.from_ hpush]
      exact hinv.all_nodup
  · -- ready_queued
    intro x hx hdeg hnp
    by_cases hxx : x = d0.from_
    · rw [topoStepNeighbor_inDegree, hxx, alGet_alSet_self] at hdeg
      have hzero : degOf st.inDegree d0.from_ - 1 = 0 := Option.some.inj hdeg
      rw [topoStepNeighbor_queue_pos cl st d0.from_ hzero, hxx]
      exact List.mem_append_right _ (List.mem_singleton_self _)
    · have hne : d0.from_ ≠ x := fun heq => hxx heq.symm
      rw [topoStepNeighbor_inDegree, alGet_alSet_ne _ _ _ _ hne] at hdeg
      have hq := hinv.ready_queued x hx hdeg hnp
      by_cases hpush : degOf st.inDegree d0.from_ - 1 = 0
      · rw [topoStepNeighbor_queue_pos cl st d0.from_ hpush]
        exact List.mem_append_left _ hq
      · rw [topoStepNeighbor_queue_neg cl st d0.from_ hpush]
        exact hq
  · -- layers_mono
    intro x
    show layerOf lay0 x ≤ layerOf (alSet st.layers d0.from_
      (max (layerOf st.layers d0.from_) (cl + 1))) x
    by_cases hxx : d0.from_ = x
    · subst hxx
      rw [layerOf_alSet_self]
      exact le_trans (hinv.layers_mono d0.from_) (le_max_left _ _)
    · rw [layerOf_alSet_ne _ _ _ _ hxx]
      exact hinv.layers_mono x
  · -- layers_frozen
    intro x hxm
    show layerOf (alSet st.layers d0.from_
      (max (layerOf st.layers d0.from_) (cl + 1))) x = layerOf lay0 x
    have hne : d0.from_ ≠ x := by
      intro heq
      rcases List.mem_append.mp hxm with h | h
      · exact hx0_not_popped (heq ▸ h)
      · exact hx0_ne_current (heq ▸ List.mem_singleton.mp h)
    rw [layerOf_alSet_ne _ _ _ _ hne]
    exact hinv.layers_frozen x hxm
  · -- processed_layer
    intro d hd
    show cl + 1 ≤ layerOf (alSet st.layers d0.from_
      (max (layerOf st.layers d0.from_) (cl + 1))) d.from_
    rcases List.mem_append.mp hd with h | h
    · by_cases hxx : d0.from_ = d.from_
      · rw [← hxx, layerOf_alSet_self]
        exact le_max_right _ _
      · rw [layerOf_alSet_ne _ _ _ _ hxx]
        exact hinv.processed_layer d h
    · rw [List.mem_singleton.mp h, layerOf_alSet_self]
      exact le_max_right _ _

theorem foldInv_fold (comps : List Component) (deps : List Dependency)
    (popped : List String) (current : String) (cl : Nat)
    (lay0 : List (String × Nat))
    (hval : ∀ d ∈ deps, d.from_ ∈ comps.map (fun c => c.name) ∧
      d.to_ ∈ comps.map fun c => c.name)
    (hpop_closed : ∀ t ∈ popped, ∀ d ∈ deps, d.from_ = t → d.to_ ∈ popped)
    (hcur_closed : ∀ d ∈ deps, d.from_ = current → d.to_ ∈ popped)
    (hcur_not_popped : current ∉ popped) :
    ∀ (ds2 ds1 : List Dependency) (st : TopoState),
      deps.filter (fun d => decide (d.to_ = current)) = ds1 ++ ds2 →
      FoldInv comps deps popped current cl lay0 ds1 st →
      FoldInv comps deps popped current cl lay0 (ds1 ++ ds2)
        ((ds2.map fun d => d.from_).foldl (topoStepNeighbor cl) st) := by
  intro ds2
  induction ds2 with
  | nil =>
    intro ds1 st hsplit hinv
    simpa using hinv
  | cons d0 rest ih =>
    intro ds1 st hsplit hinv
    have hstep := foldInv_step comps deps popped current cl lay0 hval hpop_closed
      hcur_closed hcur_not_popped ds1 rest d0 hsplit st hinv
    have hsplit' : deps.filter (fun d => decide (d.to_ = current)) =
        (ds1 ++ [d0]) ++ rest := by
      rw [hsplit]
      simp
    have hres := ih (ds1 ++ [d0]) (topoStepNeighbor cl st d0.from_) hsplit' hstep
    have hl : ds1 ++ d0 :: rest = (ds1 ++ [d0]) ++ rest := by simp
    rw [hl]
    exact hres

theorem countP_congrB {α : Type} (p q : α → Bool) :
    ∀ l : List α, (∀ a ∈ l, p a = q a) → l.countP p = l.countP q := by
  intro l
  induction l with
  | nil => intro _; rfl
  | cons a rest ih =>
    intro h
    rw [List.countP_cons, List.countP_cons, h a (List.mem_cons_self a rest),
      ih fun a ha => h a (List.mem_cons_of_mem _ ha)]

theorem topoInv_iter (comps : List Component) (deps : List Dependency)
    (hval : ∀ d ∈ deps, d.from_ ∈ comps.map (fun c => c.name) ∧
      d.to_ ∈ comps.map fun c => c.name)
    (popped : List String) (current : String) (rest : List String)
    (lay : List (String × Nat)) (deg : List (String × Int))
    (hinv : TopoInv comps deps popped
      { layers := lay, inDegree := deg, queue := current :: rest }) :
    TopoInv comps deps (popped ++ [current])
      ((((alGet (topoInit comps deps).1 current).getD []).foldl
        (topoStepNeighbor (layerOf lay current))
        { layers := lay, inDegree := deg, queue := rest })) := by
  have hcur_names : current ∈ comps.map fun c => c.name :=
    hinv.queue_names current (List.mem_cons_self _ _)
  have hnbs : (alGet (topoInit comps deps).1 current).getD [] =
      (deps.filter fun d => decide (d.to_ = current)).map fun d => d.from_ := by
    rw [topoInit_graph comps deps current hcur_names]
    rfl
  have hnodup0 : ((current :: rest) ++ popped).Nodup := hinv.all_nodup
  have hcur_not_popped : current ∉ popped := by
    rw [List.cons_append, List.nodup_cons] at hnodup0
    intro hmem
    exact hnodup0.1 (List.mem_append_right _ hmem)
  have hdeg_cur := hinv.queue_deg current (List.mem_cons_self _ _)
  have hPT : processedCount deps popped current = depOutCount deps current := by
    have h1 := hinv.deg_eq current hcur_names
    rw [hdeg_cur] at h1
    have h2 := Option.some.inj h1
    have h3 : processedCount deps popped current ≤ depOutCount deps current := by
      unfold processedCount depOutCount
      exact countP_and_le _ _ _
    omega
  have hcur_closed : ∀ d ∈ deps, d.from_ = current → d.to_ ∈ popped := by
    intro d hd hf
    have := all_of_countP_eq (fun d => decide (d.from_ = current))
      (fun d => decide (d.to_ ∈ popped)) deps (by
        unfold processedCount depOutCount at hPT
        exact hPT) d hd (by simp [hf])
    simpa using this
  have hinit : FoldInv comps deps popped current (layerOf lay current) lay []
      { layers := lay, inDegree := deg, queue := rest } := by
    constructor
    · intro x hx
      have := hinv.deg_eq x hx
      simpa using this
    · intro x hx
      exact hinv.queue_names x (List.mem_cons_of_mem _ hx)
    · intro x hx
      exact hinv.queue_deg x (List.mem_cons_of_mem _ hx)
    · show (rest ++ (popped ++ [current])).Nodup
      have h1 : (current :: (rest ++ popped)).Nodup := by
        rw [List.cons_append] at hnodup0
        exact hnodup0
      have hperm : (current :: (rest ++ popped)).Perm ((rest ++ popped) ++ [current]) :=
        (List.perm_append_singleton current (rest ++ popped)).symm
      have h2 : ((rest ++ popped) ++ [current]).Nodup := hperm.nodup h1
      have h3 : (rest ++ popped) ++ [current] = rest ++ (popped ++ [current]) := by simp
      rw [← h3]
      exact h2
    · intro x hx hdx hnp
      have hx_ne : x ≠ current := by
        intro heq
        exact hnp (heq ▸ List.mem_append_right _ (List.mem_singleton_self _))
      have hx_np : x ∉ popped := fun hmem => hnp (List.mem_append_left _ hmem)
      have := hinv.ready_queued x hx hdx hx_np
      rcases List.mem_cons.mp this with h | h
      · exact absurd h hx_ne
      · exact h
    · intro x
      exact le_refl _
    · intro x hx
      rfl
    · intro d hd
      cases hd
  have hfold := foldInv_fold comps deps popped current (layerOf lay current) lay
    hval hinv.popped_closed hcur_closed hcur_not_popped
    (deps.filter fun d => decide (d.to_ = current)) []
    { layers := lay, inDegree := deg, queue := rest } (by simp) hinit
  rw [hnbs]
  have hds : ([] : List Dependency) ++ (deps.filter fun d => decide (d.to_ = current)) =
      deps.filter fun d => decide (d.to_ = current) := by simp
  rw [hds] at hfold
  have hdisj2 : ∀ d ∈ deps,
      ¬(decide (d.to_ ∈ popped) = true ∧ decide (d.to_ = current) = true) := by
    intro d hd ⟨h1, h2⟩
    rw [decide_eq_true_eq] at h1 h2
    exact hcur_not_popped (h2 ▸ h1)
  constructor
  · intro x hx
    rcases List.mem_append.mp hx with h | h
    · exact hinv.popped_names x h
    · rw [List.mem_singleton.mp h]
      exact hcur_names
  · exact hfold.queue_names
  · exact hfold.queue_deg
  · exact hfold.all_nodup
  · intro x hx
    rw [hfold.deg_eq x hx]
    have hsplitP : processedCount deps (popped ++ [current]) x =
        processedCount deps popped x +
          deps.countP fun d => decide (d.from_ = x) && decide (d.to_ = current) := by
      unfold processedCount
      have hcongr : deps.countP
          (fun d => decide (d.from_ = x) && decide (d.to_ ∈ popped ++ [current])) =
          deps.countP fun d => decide (d.from_ = x) &&
            (decide (d.to_ ∈ popped) || decide (d.to_ = current)) := by
        apply countP_congrB
        intro d hd
        by_cases h1 : d.to_ ∈ popped <;> by_cases h2 : d.to_ = current <;>
          simp [h1, h2]
      rw [hcongr]
      exact countP_or_split _ _ _ deps hdisj2
    have hfc : (deps.filter fun d => decide (d.to_ = current)).countP
        (fun d => decide (d.from_ = x)) =
        deps.countP fun d => decide (d.from_ = x) && decide (d.to_ = current) :=
      countP_filter_eq _ _ deps
    rw [hsplitP, hfc]
    congr 1
    push_cast
    ring
  · exact hfold.ready_queued
  · intro t ht d hd hdt
    rcases List.mem_append.mp ht with h | h
    · have hfz := hfold.layers_frozen t (List.mem_append_left _ h)
      have hmono := hfold.layers_mono d.from_
      have hold := hinv.popped_layers t h d hd hdt
      rw [hfz]
      exact le_trans hold hmono
    · have ht_cur : t = current := List.mem_singleton.mp h
      subst ht_cur
      have hfz := hfold.layers_frozen t
        (List.mem_append_right _ (List.mem_singleton_self _))
      have hdf : d ∈ deps.filter fun d => decide (d.to_ = t) :=
        List.mem_filter_of_mem hd (by simp [hdt])
      have hpl := hfold.processed_layer d hdf
      rw [hfz]
      exact hpl
  · intro t ht d hd hf
    rcases List.mem_append.mp ht with h | h
    · exact List.mem_append_left _ (hinv.popped_closed t h d hd hf)
    · exact List.mem_append_left _
        (hcur_closed d hd ((List.mem_singleton.mp h) ▸ hf))

theorem topoInv_final (comps : List Component) (deps : List Dependency)
    (hval : ∀ d ∈ deps, d.from_ ∈ comps.map (fun c => c.name) ∧
      d.to_ ∈ comps.map fun c => c.name)
    (rank : String → Nat) (hrank : ∀ d ∈ deps, rank d.to_ < rank d.from_)
    (popped : List String) (lay : List (String × Nat)) (deg : List (String × Int))
    (hinv : TopoInv comps deps popped
      { layers := lay, inDegree := deg, queue := [] }) :
    ∀ d ∈ deps, layerOf lay d.to_ + 1 ≤ layerOf lay d.from_ := by
  have hcomplete : ∀ x ∈ comps.map (fun c => c.name), x ∈ popped := by
    have main : ∀ (n : Nat) (x : String), x ∈ comps.map (fun c => c.name) →
        rank x ≤ n → x ∈ popped := by
      intro n
      induction n using Nat.strong_induction_on with
      | _ n ihn =>
        intro x hx hr
        by_contra hnp
        have hdeg : ¬(alGet deg x = some 0) := by
          intro h0
          have hq := hinv.ready_queued x hx h0 hnp
          cases hq
        have hdeq := hinv.deg_eq x hx
        have hPle : processedCount deps popped x ≤ depOutCount deps x := by
          unfold processedCount depOutCount
          exact countP_and_le _ _ _
        have hPlt : processedCount deps popped x < depOutCount deps x := by
          rcases Nat.lt_or_ge (processedCount deps popped x) (depOutCount deps x) with h | h
          · exact h
          · exfalso
            have : processedCount deps popped x = depOutCount deps x := by omega
            apply hdeg
            rw [hdeq, this]
            norm_num
        obtain ⟨d, hd, hpd, hqd⟩ := exists_of_countP_lt
          (fun d => decide (d.from_ = x)) (fun d => decide (d.to_ ∈ popped)) deps
          (by
            unfold processedCount depOutCount at hPlt
            exact hPlt)
        have hdf : d.from_ = x := decide_eq_true_eq.mp hpd
        have hdt_np : d.to_ ∉ popped := by
          intro hmem
          rw [decide_eq_false_iff_not] at hqd
          exact hqd hmem
        have hto_names : d.to_ ∈ comps.map fun c => c.name := (hval d hd).2
        have hrankd : rank d.to_ < rank x := hdf ▸ hrank d hd
        exact hdt_np (ihn (rank d.to_) (by omega) d.to_ hto_names (le_refl _))
    intro x hx
    exact main (rank x) x hx (le_refl _)
  intro d hd
  have := hinv.popped_layers d.to_ (hcomplete d.to_ (hval d hd).2) d hd rfl
  simpa using this

theorem topoLoop_inv (comps : List Component) (deps : List Dependency)
    (hval : ∀ d ∈ deps, d.from_ ∈ comps.map (fun c => c.name) ∧
      d.to_ ∈ comps.map fun c => c.name)
    (rank : String → Nat) (hrank : ∀ d ∈ deps, rank d.to_ < rank d.from_) :
    ∀ (fuel : Nat) (popped : List String) (st : TopoState),
      topoMeasure st ≤ fuel →
      TopoInv comps deps popped st →
      ∀ d ∈ deps,
        layerOf (topoLoop (topoInit comps deps).1 fuel st) d.to_ + 1 ≤
        layerOf (topoLoop (topoInit comps deps).1 fuel st) d.from_ := by
  intro fuel
  induction fuel with
  | zero =>
    intro popped st hm hinv
    obtain ⟨lay, deg, q⟩ := st
    have hq : q = [] := by
      have : q.length + sumPos deg ≤ 0 := by simpa [topoMeasure] using hm
      exact List.length_eq_zero.mp (by omega)
    subst hq
    rw [topoLoop_nil]
    exact topoInv_final comps deps hval rank hrank popped lay deg hinv
  | succ f ih =>
    intro popped st hm hinv
    obtain ⟨lay, deg, q⟩ := st
    rcases q with _ | ⟨current, rest⟩
    · rw [topoLoop_nil]
      exact topoInv_final comps deps hval rank hrank popped lay deg hinv
    · rw [topoLoop_succ]
      apply ih (popped ++ [current])
      · have hfold := topoMeasure_fold (layerOf lay current)
          ((alGet (topoInit comps deps).1 current).getD [])
          { layers := lay, inDegree := deg, queue := rest }
        have hm' : (current :: rest).length + sumPos deg ≤ f + 1 := by
          simpa [topoMeasure] using hm
        have h1 : topoMeasure { layers := lay, inDegree := deg, queue := rest } =
            rest.length + sumPos deg := by
          simp [topoMeasure]
        simp only [List.length_cons] at hm'
        omega
      · exact topoInv_iter comps deps hval popped current rest lay deg hinv

/-- C3: on an acyclic valid graph, the layering of `topologicalSort` is
strict along every dependency edge — the source of each edge receives a
strictly greater layer than its target (a node with several dependents keeps
the maximum layer ever proposed, which is how the algorithm propagates). -/
theorem C3_strict_layering (comps : List Component) (deps : List Dependency)
    (hv : ValidGraph comps deps) (ha : AcyclicDeps deps) :
    ∀ d ∈ deps, layerOf (topologicalSort comps deps) d.to_ <
      layerOf (topologicalSort comps deps) d.from_ := by
  obtain ⟨hnodup, hval⟩ := hv
  obtain ⟨rank, hrank⟩ := ha
  intro d hd
  have := topoLoop_inv comps deps hval rank hrank
    (topoMeasure (topoInit comps deps).2) [] (topoInit comps deps).2 (le_refl _)
    (topoInv_init comps deps hnodup hval) d hd
  have heq : topologicalSort comps deps =
      topoLoop (topoInit comps deps).1 (topoMeasure (topoInit comps deps).2)
        (topoInit comps deps).2 := rfl
  rw [heq]
  omega

theorem C3_strict_layering_witness :
    (ValidGraph
        [{ name := "A", stage := .genesis, isAnchor := false, x := none, y := none },
         { name := "B", stage := .commodity, isAnchor := false, x := none, y := none }]
        [{ from_ := "A", to_ := "B", label := none }] ∧
      AcyclicDeps [{ from_ := "A", to_ := "B", label := none }] ∧
      ({ from_ := "A", to_ := "B", label := none } : Dependency) ∈
        [({ from_ := "A", to_ := "B", label := none } : Dependency)]) ∧
    layerOf (topologicalSort
        [{ name := "A", stage := .genesis, isAnchor := false, x := none, y := none },
         { name := "B", stage := .commodity, isAnchor := false, x := none, y := none }]
        [{ from_ := "A", to_ := "B", label := none }]) "B" <
      layerOf (topologicalSort
        [{ name := "A", stage := .genesis, isAnchor := false, x := none, y := none },
         { name := "B", stage := .commodity, isAnchor := false, x := none, y := none }]
        [{ from_ := "A", to_ := "B", label := none }]) "A" := by
  have hv : ValidGraph
      [{ name := "A", stage := .genesis, isAnchor := false, x := none, y := none },
       { name := "B", stage := .commodity, isAnchor := false, x := none, y := none }]
      [{ from_ := "A", to_ := "B", label := none }] := by
    constructor
    · decide
    · intro d hd
      rcases List.mem_singleton.mp hd with rfl
      exact ⟨by decide, by decide⟩
  have ha : AcyclicDeps [{ from_ := "A", to_ := "B", label := none }] := by
    refine ⟨fun s => if s = "A" then 1 else 0, ?_⟩
    intro d hd
    rcases List.mem_singleton.mp hd with rfl
    simp
  refine ⟨⟨hv, ha, List.mem_singleton_self _⟩, ?_⟩
  exact C3_strict_layering _ _ hv ha _ (List.mem_singleton_self _)
